import Mathlib

/-!
Verification development for the Temporal Liquidity Book (TLB) execution
engine of `bloom-offchain` (crate `bloom-offchain`, module
`execution_engine::liquidity_book`).

Shallow embedding conventions:
* `u64` quantities are `Nat` values; where Rust release-mode arithmetic can
  wrap, the wrap is explicit (`wrap64`, `add64`, `sub64`, `mul64`).
* `Ratio<u128>` / `AbsolutePrice` values are modelled as `ℚ`.  `num_rational`
  keeps ratios reduced with a positive denominator, which matches the `num` /
  `den` normal form of `ℚ`; the arithmetic performed by the engine is exact
  rational arithmetic as long as the 128-bit components do not overflow.
  The `as i128` / `as u128` casts of `to_signed` / `to_unsigned` are modelled
  on the numerator (`to_unsigned` reproduces the two's-complement wrap of a
  negative numerator).
* The generic functions (`settle_price`, `fill_from_fragment`, ...) are
  instantiated at the repository's own concrete order type `SimpleOrderPF`
  and pool type `SimpleCFMMPool` (from `state.rs`), whose `Fragment`,
  `OrderState` and `Pool` implementations are embedded verbatim.
* `BTreeSet<Fr>` is modelled as a list ordered by the fragment comparator;
  `BTreeMap<u64, _>` as a key-sorted association list.
* Rust panics (contract violations) are modelled with `Option`.
-/

/-- Truncation of a 128-bit unsigned intermediate to `u64` (the `as u64` cast). -/
def wrap64 (n : Nat) : Nat := n % 2 ^ 64

/-- Wrap of an overflowing 128-bit unsigned product (release-mode semantics). -/
def wrap128 (n : Nat) : Nat := n % 2 ^ 128

/-- Wrapping `u64` addition (release-mode semantics of `+`). -/
def add64 (a b : Nat) : Nat := (a + b) % 2 ^ 64

/-- Wrapping `u64` subtraction (release-mode semantics of `-`). -/
def sub64 (a b : Nat) : Nat := if b ≤ a then a - b else a + 2 ^ 64 - b

/-- Wrapping `u64` multiplication (release-mode semantics of `*`). -/
def mul64 (a b : Nat) : Nat := (a * b) % 2 ^ 64

/-- Marker of a side of a trading pair (`side::SideM`). -/
inductive SideM where
  | bid : SideM
  | ask : SideM
deriving DecidableEq, Repr

/-- Value tagged with a side (`side::Side<T>`). -/
inductive SideV (α : Type) where
  | bid (a : α) : SideV α
  | ask (a : α) : SideV α
deriving DecidableEq, Repr

/-- Wrapping of a raw value into a sided value (`SideM::wrap`). -/
def SideM.wrap (s : SideM) (a : α) : SideV α :=
  match s with
  | .bid => .bid a
  | .ask => .ask a

/-- Opposite side (`Not for SideM`). -/
def SideM.flip (s : SideM) : SideM :=
  match s with
  | .bid => .ask
  | .ask => .bid

/-- Comparison of prices on opposite sides (`Side<AbsolutePrice>::overlaps`). -/
def SideV.overlaps (s : SideV ℚ) (that : ℚ) : Bool :=
  match s with
  | .bid this => that ≤ this
  | .ask this => this ≤ that

/-- Comparison of prices on the same side (`Side<AbsolutePrice>::better_than`). -/
def SideV.better_than (s : SideV ℚ) (that : ℚ) : Bool :=
  match s with
  | .bid this => that ≤ this
  | .ask this => this ≤ that

/-- Time bounds of an order (`time::TimeBounds`).  Modelled from the spec:
the `time` module is not among the provided sources; §3 of the spec fixes the
closed variant set `None | After(t) | Until(t) | Between(t₁,t₂)`. -/
inductive TimeBounds where
  | none : TimeBounds
  | after (t : Nat) : TimeBounds
  | until (t : Nat) : TimeBounds
  | between (t1 t2 : Nat) : TimeBounds
deriving DecidableEq, Repr

/-- Lower bound of time bounds, when one exists. -/
def TimeBounds.lower_bound : TimeBounds → Option Nat
  | .none => Option.none
  | .after t => some t
  | .until _ => Option.none
  | .between t1 _ => some t1

/-- Containment of a point of time in the bounds. -/
def TimeBounds.contain (b : TimeBounds) (t : Nat) : Bool :=
  match b with
  | .none => true
  | .after t0 => t0 ≤ t
  | .until t1 => t ≤ t1
  | .between t0 t1 => t0 ≤ t && t ≤ t1

/-- Result of an order state transition (`fragment::StateTrans`). -/
inductive StateTrans (α : Type) where
  | Active (next : α) : StateTrans α
  | EOL : StateTrans α
deriving DecidableEq, Repr

/-- The repository's partially-fillable test order (`state.rs::tests::SimpleOrderPF`),
used as the concrete instance of the `Fragment` + `OrderState` capabilities. -/
structure SimpleOrderPF where
  source : Nat
  side : SideM
  input : Nat
  accumulated_output : Nat
  min_marginal_output : Nat
  price : ℚ
  fee : Nat
  ex_budget : Nat
  cost_hint : Nat
  bounds : TimeBounds
deriving DecidableEq, Repr

/-- Three-way comparison of rationals (ordering of `Ratio<u128>`). -/
def qcmp (p q : ℚ) : Ordering :=
  if p < q then .lt else if q < p then .gt else .eq

/-- The `Ord` instance of `SimpleOrderPF`: by price, then by stable id. -/
def SimpleOrderPF.cmp (a b : SimpleOrderPF) : Ordering :=
  (qcmp a.price b.price).then (compare a.source b.source)

/-- OrderState::with_updated_time for `SimpleOrderPF`. -/
def SimpleOrderPF.with_updated_time (f : SimpleOrderPF) (time : Nat) :
    StateTrans SimpleOrderPF :=
  if f.bounds.contain time then .Active f else .EOL

/-- OrderState::with_applied_swap for `SimpleOrderPF`: returns the next state,
the execution budget used and the execution fee used. -/
def SimpleOrderPF.with_applied_swap (f : SimpleOrderPF)
    (removed_input added_output : Nat) :
    StateTrans SimpleOrderPF × Nat × Nat :=
  let f' : SimpleOrderPF :=
    { f with
      input := sub64 f.input removed_input,
      accumulated_output := add64 f.accumulated_output added_output }
  let budget_used := mul64 added_output f.fee
  let next_st : StateTrans SimpleOrderPF :=
    if 0 < f'.input then .Active f' else .EOL
  (next_st, budget_used, f.fee)

/-- Weight of a fragment.  Modelled from the spec: the `weight` module is not
among the provided sources; §4.4.1 of the spec describes the weight as the
fragment's fee density, embedded here as fee per unit of input. -/
def SimpleOrderPF.weight (f : SimpleOrderPF) : ℚ :=
  (f.fee : ℚ) / (f.input : ℚ)

/-- Clamping of a value into a closed interval (`mod.rs::truncated`). -/
def truncated (value low high : ℚ) : ℚ :=
  if low ≤ value ∧ value ≤ high then value
  else if value < low then low
  else high

/-- Conversion `Ratio<u128> → Ratio<i128>` (`mod.rs::to_signed`): the reduced
nonnegative components are reinterpreted as signed, which is exact. -/
def to_signed (r : ℚ) : ℚ := r

/-- Conversion `Ratio<i128> → Ratio<u128>` (`mod.rs::to_unsigned`): the `as u128`
cast of a negative numerator wraps by `2^128`; the positive denominator is
unchanged. -/
def to_unsigned (r : ℚ) : ℚ :=
  if 0 ≤ r.num then r else ((r.num + 2 ^ 128 : ℤ) : ℚ) / (r.den : ℚ)

/-- The constant `MAX_BIAS_PERCENT` of `mod.rs`. -/
def MAX_BIAS_PERCENT : ℤ := 3

/-- Settlement price for two interleaving fragments (`mod.rs::settle_price`).
Rust `i128` division truncates toward zero (`Int.tdiv`). -/
def settle_price (ask bid : SimpleOrderPF) (index_price : Option ℚ) : ℚ :=
  let price_ask_rat := ask.price
  let price_bid_rat := bid.price
  let d := price_bid_rat - price_ask_rat
  let pivotal_price :=
    match index_price with
    | some ip => truncated ip price_ask_rat price_bid_rat
    | none => price_ask_rat + d / 2
  let fee_ask : ℤ := ask.fee
  let fee_bid : ℤ := bid.fee
  let bias_percent : ℤ :=
    if fee_ask < fee_bid then Int.tdiv (-fee_ask * 100) fee_bid
    else Int.tdiv (fee_bid * 100) fee_ask
  let max_deviation := pivotal_price * ((MAX_BIAS_PERCENT : ℚ) / 100)
  let deviation := to_signed max_deviation * ((bias_percent : ℚ) / 100)
  let corrected_price := to_unsigned (to_signed pivotal_price + deviation)
  truncated corrected_price price_ask_rat price_bid_rat

/-- Pivot price used by `settle_price`: index price truncated into
`[ask.price, bid.price]` when an index is given, otherwise the midpoint. -/
def pivot_price (ask bid : SimpleOrderPF) (index_price : Option ℚ) : ℚ :=
  match index_price with
  | some ip => truncated ip ask.price bid.price
  | none => ask.price + (bid.price - ask.price) / 2

/-- Linear conversion of an input quantity at a sided price
(`mod.rs::linear_output`).  The 128-bit product and the final `as u64`
narrowing wrap explicitly. -/
def linear_output (input : Nat) (price : SideV ℚ) : Nat :=
  match price with
  | .bid p => wrap64 (wrap128 (input * p.den) / p.num.toNat)
  | .ask p => wrap64 (wrap128 (input * p.num.toNat) / p.den)

/-- Concrete CFMM pool of the repository's tests (`state.rs::tests::SimpleCFMMPool`). -/
structure SimpleCFMMPool where
  pool_id : Nat
  reserves_base : Nat
  reserves_quote : Nat
  fee_num : Nat
deriving DecidableEq, Repr

/-- Stable identifier of a pool (`Stable::stable_id`). -/
def SimpleCFMMPool.stable_id (p : SimpleCFMMPool) : Nat := p.pool_id

/-- Quality of a pool (`Pool::quality` for `SimpleCFMMPool`): the wrapping `u64`
sum of the reserves. -/
def SimpleCFMMPool.quality (p : SimpleCFMMPool) : Nat :=
  add64 p.reserves_quote p.reserves_base

/-- Deterministic swap of a `SimpleCFMMPool` (`Pool::swap`). -/
def SimpleCFMMPool.swap (p : SimpleCFMMPool) (input : SideV Nat) :
    Nat × SimpleCFMMPool :=
  match input with
  | .bid quote_input =>
    let base_output :=
      wrap64 (wrap128 (p.reserves_base * quote_input * p.fee_num) /
        (p.reserves_quote * 1000 + quote_input * p.fee_num))
    (base_output,
      { p with
        reserves_quote := add64 p.reserves_quote quote_input,
        reserves_base := sub64 p.reserves_base base_output })
  | .ask base_input =>
    let quote_output :=
      wrap64 (wrap128 (p.reserves_quote * base_input * p.fee_num) /
        (p.reserves_base * 1000 + base_input * p.fee_num))
    (quote_output,
      { p with
        reserves_base := add64 p.reserves_base base_input,
        reserves_quote := sub64 p.reserves_quote quote_output })

/-- Terminal fill instruction (`recipe.rs::Fill`). -/
structure Fill where
  target_fr : SimpleOrderPF
  next_fr : StateTrans SimpleOrderPF
  removed_input : Nat
  added_output : Nat
  budget_used : Nat
  fee_used : Nat
deriving DecidableEq, Repr

/-- Constructor `Fill::new`: the removed input is the target's whole input. -/
def Fill.new (target : SimpleOrderPF) (transition : StateTrans SimpleOrderPF)
    (added_output budget_used fee_used : Nat) : Fill :=
  { target_fr := target,
    next_fr := transition,
    removed_input := target.input,
    added_output := added_output,
    budget_used := budget_used,
    fee_used := fee_used }

/-- Terminal swap instruction (`recipe.rs::Swap`). -/
structure Swap where
  target : SimpleCFMMPool
  transition : SimpleCFMMPool
  side : SideM
  input : Nat
  output : Nat
deriving DecidableEq, Repr

/-- Terminal instruction (`recipe.rs::TerminalInstruction`). -/
inductive TerminalInstruction where
  | Fill (fill : Fill) : TerminalInstruction
  | Swap (swap : Swap) : TerminalInstruction
deriving DecidableEq, Repr

/-- Partial fill carried as a recipe remainder (`recipe.rs::PartialFill`). -/
structure PartialFill where
  target : SimpleOrderPF
  remaining_input : Nat
  accumulated_output : Nat
deriving DecidableEq, Repr

/-- Constructor `PartialFill::new`. -/
def PartialFill.new (target : SimpleOrderPF)
    (remaining_input added_output : Nat) : PartialFill :=
  { target := target,
    remaining_input := remaining_input,
    accumulated_output := added_output }

/-- Constructor `PartialFill::empty`: the whole input remains. -/
def PartialFill.empty (fr : SimpleOrderPF) : PartialFill :=
  { target := fr, remaining_input := fr.input, accumulated_output := 0 }

/-- Force-fill of a partial fill (`PartialFill::filled_unsafe`). -/
def PartialFill.filled_unsafe (pf : PartialFill) : Fill :=
  let r := pf.target.with_applied_swap pf.target.input pf.accumulated_output
  { target_fr := pf.target,
    next_fr := r.1,
    removed_input := pf.target.input,
    added_output := pf.accumulated_output,
    budget_used := r.2.1,
    fee_used := r.2.2 }

/-- Promotion of a remainder to a terminal fill (`From<PartialFill> for Fill`). -/
def PartialFill.toFill (pf : PartialFill) : Fill :=
  let removed := sub64 pf.target.input pf.remaining_input
  let added := pf.accumulated_output
  let r := pf.target.with_applied_swap removed added
  { removed_input := removed,
    next_fr := r.1,
    added_output := added,
    target_fr := pf.target,
    budget_used := r.2.1,
    fee_used := r.2.2 }

/-- Intermediate recipe under assembly (`recipe.rs::IntermediateRecipe`). -/
structure IntermediateRecipe where
  terminal : List TerminalInstruction
  remainder : Option PartialFill
deriving DecidableEq, Repr

/-- Completeness check of a recipe (`IntermediateRecipe::is_complete`). -/
def IntermediateRecipe.is_complete (r : IntermediateRecipe) : Bool :=
  2 ≤ r.terminal.length || (0 < r.terminal.length && r.remainder.isSome)

/-- Unsatisfied fragments of a recipe (`IntermediateRecipe::unsatisfied_fragments`):
terminal fills below the minimal marginal output, then the remainder if below it. -/
def IntermediateRecipe.unsatisfied_fragments (r : IntermediateRecipe) :
    List SimpleOrderPF :=
  (r.terminal.filterMap fun x =>
    match x with
    | .Fill fill =>
      if fill.added_output < fill.target_fr.min_marginal_output
      then some fill.target_fr else Option.none
    | .Swap _ => Option.none) ++
  (match r.remainder with
   | some fill =>
     if fill.accumulated_output < fill.target.min_marginal_output
     then [fill.target] else []
   | Option.none => [])

/-- Validation of an intermediate recipe (`ExecutionRecipe::try_from`):
`ok` with the terminal instructions (remainder promoted) when complete and
satisfied, `error (some l)` with the unsatisfied fragments when complete but
unsatisfied, `error none` when incomplete. -/
def ExecutionRecipe.try_from (rec : IntermediateRecipe) :
    Except (Option (List SimpleOrderPF)) (List TerminalInstruction) :=
  if rec.is_complete then
    let unsatisfied := rec.unsatisfied_fragments
    if unsatisfied.isEmpty then
      .ok (rec.terminal ++
        (match rec.remainder with
         | some rem => [TerminalInstruction.Fill rem.toFill]
         | Option.none => []))
    else .error (some unsatisfied)
  else .error Option.none

/-- Result of a fragment-to-fragment fill (`mod.rs::FillFromFragment`):
a terminal fill plus either a terminal fill or a partial fill. -/
structure FillFromFragment where
  term_fill_lt : Fill
  fill_rt : Fill ⊕ PartialFill
deriving DecidableEq, Repr

/-- Fragment-to-fragment fill (`mod.rs::fill_from_fragment`). -/
def fill_from_fragment (lhs : PartialFill) (rhs : SimpleOrderPF)
    (matchmaker : SimpleOrderPF → SimpleOrderPF → ℚ) : FillFromFragment :=
  match lhs.target.side with
  | .bid =>
    let bid := lhs
    let ask := rhs
    let price := matchmaker ask bid.target
    let demand_base := linear_output bid.remaining_input (.bid price)
    let supply_base := ask.input
    if demand_base < supply_base then
      let quote_input := bid.remaining_input
      let bid' := { bid with
        accumulated_output := add64 bid.accumulated_output demand_base }
      let remaining_input := sub64 supply_base demand_base
      { term_fill_lt := bid'.filled_unsafe,
        fill_rt := .inr (PartialFill.new ask remaining_input quote_input) }
    else if supply_base < demand_base then
      let quote_executed := linear_output supply_base (.ask price)
      let bid' := { bid with
        remaining_input := sub64 bid.remaining_input quote_executed,
        accumulated_output := add64 bid.accumulated_output supply_base }
      let r := ask.with_applied_swap ask.input quote_executed
      { term_fill_lt := Fill.new ask r.1 quote_executed r.2.1 r.2.2,
        fill_rt := .inr bid' }
    else
      let quote_executed := linear_output supply_base (.ask price)
      let bid' := { bid with
        accumulated_output := add64 bid.accumulated_output demand_base }
      let r := ask.with_applied_swap ask.input quote_executed
      { term_fill_lt := bid'.filled_unsafe,
        fill_rt := .inl (Fill.new ask r.1 quote_executed r.2.1 r.2.2) }
  | .ask =>
    let ask := lhs
    let bid := rhs
    let price := matchmaker bid ask.target
    let demand_base := linear_output bid.input (.bid price)
    let supply_base := ask.remaining_input
    if demand_base < supply_base then
      let ask' := { ask with
        remaining_input := sub64 ask.remaining_input demand_base,
        accumulated_output := add64 ask.accumulated_output bid.input }
      let r := bid.with_applied_swap bid.input demand_base
      { term_fill_lt := Fill.new bid r.1 demand_base r.2.1 r.2.2,
        fill_rt := .inr ask' }
    else if supply_base < demand_base then
      let quote_executed := linear_output supply_base (.ask price)
      let ask' := { ask with
        accumulated_output := add64 ask.accumulated_output quote_executed }
      { term_fill_lt := ask'.filled_unsafe,
        fill_rt := .inr (PartialFill.new bid
          (sub64 bid.input quote_executed) supply_base) }
    else
      let ask' := { ask with
        accumulated_output := add64 ask.accumulated_output bid.input }
      let r := bid.with_applied_swap bid.input demand_base
      { term_fill_lt := ask'.filled_unsafe,
        fill_rt := .inl (Fill.new bid r.1 demand_base r.2.1 r.2.2) }

/-- Terminal fills produced by a fragment-to-fragment fill. -/
def FillFromFragment.terminal_fills (res : FillFromFragment) : List Fill :=
  res.term_fill_lt ::
    (match res.fill_rt with
     | .inl f => [f]
     | .inr _ => [])

/-- Insertion into a `BTreeSet<SimpleOrderPF>` modelled as a `cmp`-sorted list:
a `cmp`-equal element is already present, so insertion is a no-op. -/
def btree_insert (f : SimpleOrderPF) : List SimpleOrderPF → List SimpleOrderPF
  | [] => [f]
  | x :: xs =>
    match SimpleOrderPF.cmp f x with
    | .lt => f :: x :: xs
    | .eq => x :: xs
    | .gt => x :: btree_insert f xs

/-- Removal of the `cmp`-equal element from a `BTreeSet<SimpleOrderPF>`. -/
def btree_remove (f : SimpleOrderPF) : List SimpleOrderPF → List SimpleOrderPF
  | [] => []
  | x :: xs =>
    match SimpleOrderPF.cmp f x with
    | .eq => xs
    | _ => x :: btree_remove f xs

/-- Membership in a `BTreeSet<SimpleOrderPF>` (`contains`), by `cmp`-equality. -/
def btree_contains (l : List SimpleOrderPF) (f : SimpleOrderPF) : Bool :=
  l.any fun g => SimpleOrderPF.cmp f g == Ordering.eq

/-- Strict `cmp`-sortedness: the invariant of a `BTreeSet` snapshot. -/
def btree_sorted (l : List SimpleOrderPF) : Prop :=
  l.Chain' fun a b => SimpleOrderPF.cmp a b = Ordering.lt

/-- Per-pair ordered sets of asks and bids (`state.rs::Fragments`). -/
structure Fragments where
  asks : List SimpleOrderPF
  bids : List SimpleOrderPF
deriving DecidableEq, Repr

/-- Fresh empty `Fragments` (`Fragments::new`). -/
def Fragments.new : Fragments := { asks := [], bids := [] }

/-- Side-dispatched insertion (`Fragments::insert`). -/
def Fragments.insert (s : Fragments) (fr : SimpleOrderPF) : Fragments :=
  match fr.side with
  | .bid => { s with bids := btree_insert fr s.bids }
  | .ask => { s with asks := btree_insert fr s.asks }

/-- Side-dispatched removal (`Fragments::remove`). -/
def Fragments.remove (s : Fragments) (fr : SimpleOrderPF) : Fragments :=
  match fr.side with
  | .bid => { s with bids := btree_remove fr s.bids }
  | .ask => { s with asks := btree_remove fr s.asks }

/-- Lookup in a `BTreeMap<u64, Fragments>` modelled as an association list. -/
def map_lookup (k : Nat) : List (Nat × Fragments) → Option Fragments
  | [] => Option.none
  | (k', v) :: rest => if k = k' then some v else map_lookup k rest

/-- Removal of an exact key from a `BTreeMap<u64, Fragments>`. -/
def map_remove (k : Nat) : List (Nat × Fragments) → List (Nat × Fragments)
  | [] => []
  | (k', v) :: rest => if k = k' then rest else (k', v) :: map_remove k rest

/-- Entry-style insertion of a fragment into the bucket of key `k`
(vacant entries get a fresh singleton `Fragments`), keeping keys sorted. -/
def bucket_insert (k : Nat) (fr : SimpleOrderPF) :
    List (Nat × Fragments) → List (Nat × Fragments)
  | [] => [(k, Fragments.new.insert fr)]
  | (k', frs) :: rest =>
    if k < k' then (k, Fragments.new.insert fr) :: (k', frs) :: rest
    else if k = k' then (k', frs.insert fr) :: rest
    else (k', frs) :: bucket_insert k fr rest

/-- Adjustment of an occupied bucket; vacant entries are left untouched. -/
def bucket_adjust (k : Nat) (f : Fragments → Fragments) :
    List (Nat × Fragments) → List (Nat × Fragments)
  | [] => []
  | (k', frs) :: rest =>
    if k = k' then (k', f frs) :: rest else (k', frs) :: bucket_adjust k f rest

/-- Liquidity fragments spread across the time axis (`state.rs::Chronology`). -/
structure Chronology where
  time_now : Nat
  active : Fragments
  inactive : List (Nat × Fragments)
deriving DecidableEq, Repr

/-- Fresh chronology at a given time (`Chronology::new`). -/
def Chronology.new (time_now : Nat) : Chronology :=
  { time_now := time_now, active := Fragments.new, inactive := [] }

/-- Clock advancement (`Chronology::advance_clocks`): the bucket stored at
exactly `new_time` replaces the active set, then every previously active
fragment surviving `with_updated_time` is re-inserted, and the clock moves. -/
def Chronology.advance_clocks (c : Chronology) (new_time : Nat) : Chronology :=
  let new_slot := (map_lookup new_time c.inactive).getD Fragments.new
  let inactive' := map_remove new_time c.inactive
  let asks' := c.active.asks.foldl
    (fun acc fr =>
      match fr.with_updated_time new_time with
      | .Active next_fr => btree_insert next_fr acc
      | .EOL => acc)
    new_slot.asks
  let bids' := c.active.bids.foldl
    (fun acc fr =>
      match fr.with_updated_time new_time with
      | .Active next_fr => btree_insert next_fr acc
      | .EOL => acc)
    new_slot.bids
  { time_now := new_time,
    active := { asks := asks', bids := bids' },
    inactive := inactive' }

/-- Fragment addition (`Chronology::add_fragment`): future-active fragments go
into the bucket of their lower bound, the rest into the active set. -/
def Chronology.add_fragment (c : Chronology) (fr : SimpleOrderPF) : Chronology :=
  match fr.bounds.lower_bound with
  | some lower_bound =>
    if c.time_now < lower_bound then
      { c with inactive := bucket_insert lower_bound fr c.inactive }
    else { c with active := c.active.insert fr }
  | Option.none => { c with active := c.active.insert fr }

/-- Fragment removal (`Chronology::remove_fragment`). -/
def Chronology.remove_fragment (c : Chronology) (fr : SimpleOrderPF) : Chronology :=
  match fr.bounds.lower_bound with
  | some lower_bound =>
    if c.time_now < lower_bound then
      { c with inactive := bucket_adjust lower_bound (fun frs => frs.remove fr) c.inactive }
    else { c with active := c.active.remove fr }
  | Option.none => { c with active := c.active.remove fr }

/-- Pools store (`state.rs::Pools`): primary map from stable id to pool plus a
quality index from quality to stable id, both as association lists. -/
structure Pools where
  pools : List (Nat × SimpleCFMMPool)
  quality_index : List (Nat × Nat)
deriving DecidableEq, Repr

/-- Fresh empty pools store (`Pools::new`). -/
def Pools.new : Pools := { pools := [], quality_index := [] }

/-- Map insertion returning the previous value at the key (`HashMap::insert`). -/
def pool_map_insert (k : Nat) (v : SimpleCFMMPool) :
    List (Nat × SimpleCFMMPool) →
    Option SimpleCFMMPool × List (Nat × SimpleCFMMPool)
  | [] => (Option.none, [(k, v)])
  | (k', v') :: rest =>
    if k = k' then (some v', (k', v) :: rest)
    else
      let r := pool_map_insert k v rest
      (r.1, (k', v') :: r.2)

/-- Removal of a key from the pool map (`HashMap::remove`). -/
def pool_map_remove (k : Nat) :
    List (Nat × SimpleCFMMPool) → List (Nat × SimpleCFMMPool)
  | [] => []
  | (k', v') :: rest =>
    if k = k' then rest else (k', v') :: pool_map_remove k rest

/-- Removal of a key from the quality index (`BTreeMap::remove`). -/
def qindex_remove (k : Nat) : List (Nat × Nat) → List (Nat × Nat)
  | [] => []
  | (k', v') :: rest =>
    if k = k' then rest else (k', v') :: qindex_remove k rest

/-- Insertion into the quality index, replacing an equal key (`BTreeMap::insert`). -/
def qindex_insert (k v : Nat) : List (Nat × Nat) → List (Nat × Nat)
  | [] => [(k, v)]
  | (k', v') :: rest =>
    if k = k' then (k', v) :: rest else (k', v') :: qindex_insert k v rest

/-- Pool upsert (`Pools::update_pool`): the primary map is updated and the
quality index drops the superseded pool's quality key before inserting the
new one. -/
def Pools.update_pool (ps : Pools) (pool : SimpleCFMMPool) : Pools :=
  let r := pool_map_insert pool.stable_id pool ps.pools
  let qi :=
    match r.1 with
    | some old_pool => qindex_remove old_pool.quality ps.quality_index
    | Option.none => ps.quality_index
  { pools := r.2, quality_index := qindex_insert pool.quality pool.stable_id qi }

/-- Pool removal (`Pools::remove_pool`). -/
def Pools.remove_pool (ps : Pools) (pool : SimpleCFMMPool) : Pools :=
  { pools := pool_map_remove pool.stable_id ps.pools,
    quality_index := qindex_remove pool.quality ps.quality_index }

/-- Stashing option of a rollback (`stashing_option::StashingOption`).
Modelled from the spec: the `stashing_option` module is not among the provided
sources; §4.3 of the spec fixes the two variants `Stash(xs)` and `Unstash`. -/
inductive StashingOption where
  | stash (xs : List SimpleOrderPF) : StashingOption
  | unstash : StashingOption
deriving DecidableEq, Repr

/-- State with no uncommitted changes (`state.rs::IdleState`). -/
structure IdleState where
  fragments : Chronology
  pools : Pools
deriving DecidableEq, Repr

/-- Fresh idle state (`IdleState::new`). -/
def IdleState.new (time_now : Nat) : IdleState :=
  { fragments := Chronology.new time_now, pools := Pools.new }

/-- State reflecting only consumption of fragments plus a pools preview
(`state.rs::PartialPreviewState`). -/
structure PartialPreviewState where
  fragments_preview : Chronology
  consumed_active_fragments : List SimpleOrderPF
  stashed_active_fragments : List SimpleOrderPF
  pools_intact : Pools
  pools_preview : Pools
deriving DecidableEq, Repr

/-- State with full previews of active fragments and pools plus the
inactive-fragments changeset (`state.rs::PreviewState`). -/
structure PreviewState where
  fragments_intact : Chronology
  active_fragments_preview : Fragments
  stashed_active_fragments : List SimpleOrderPF
  inactive_fragments_changeset : List (Nat × SimpleOrderPF)
  pools_intact : Pools
  pools_preview : Pools
deriving DecidableEq, Repr

/-- Fresh preview state (`PreviewState::new`). -/
def PreviewState.new (time_now : Nat) : PreviewState :=
  { fragments_intact := Chronology.new time_now,
    active_fragments_preview := Fragments.new,
    stashed_active_fragments := [],
    inactive_fragments_changeset := [],
    pools_intact := Pools.new,
    pools_preview := Pools.new }

/-- Drain of the inactive-fragments changeset into the chronology's buckets:
entries are popped from the end of the vector and inserted one by one. -/
def drain_changeset (cs : List (Nat × SimpleOrderPF))
    (inactive : List (Nat × Fragments)) : List (Nat × Fragments) :=
  cs.reverse.foldl (fun m e => bucket_insert e.1 e.2 m) inactive

/-- Commit of a partial preview (`PartialPreviewState::commit`): the preview
collections move into a fresh idle state; the mutated receiver is returned
alongside (the fresh `IdleState::new(0)` leftovers stay in it). -/
def PartialPreviewState.commit (s : PartialPreviewState) :
    PartialPreviewState × IdleState :=
  ({ s with fragments_preview := Chronology.new 0, pools_preview := Pools.new },
   { fragments := s.fragments_preview, pools := s.pools_preview })

/-- Rollback of a partial preview (`PartialPreviewState::rollback`).
With `Stash(xs)` the list is appended to the stash — `Vec::append` drains its
argument, so the subsequent loop recording `stashed_this_time` iterates an
empty vector and records nothing.  Consumed fragments are then popped from the
end and re-inserted into the active set. -/
def PartialPreviewState.rollback (s : PartialPreviewState)
    (stashing_opt : StashingOption) : PartialPreviewState × IdleState :=
  let afterStash :
      List SimpleOrderPF × Fragments :=
    match stashing_opt with
    | .stash to_stash =>
      (s.stashed_active_fragments ++ to_stash, s.fragments_preview.active)
    | .unstash =>
      ([], s.stashed_active_fragments.foldl Fragments.insert
        s.fragments_preview.active)
  let active' := s.consumed_active_fragments.reverse.foldl
    Fragments.insert afterStash.2
  ({ s with
      fragments_preview := Chronology.new 0,
      consumed_active_fragments := [],
      stashed_active_fragments := afterStash.1,
      pools_intact := Pools.new },
   { fragments := { s.fragments_preview with active := active' },
     pools := s.pools_intact })

/-- Commit of a full preview (`PreviewState::commit`): pools and active
fragments previews are swapped in, the changeset is drained into the inactive
buckets, and a fresh idle state is produced. -/
def PreviewState.commit (s : PreviewState) : PreviewState × IdleState :=
  let t := s.fragments_intact.time_now
  let chron : Chronology :=
    { s.fragments_intact with
      active := s.active_fragments_preview,
      inactive := drain_changeset s.inactive_fragments_changeset
        s.fragments_intact.inactive }
  ({ s with
      fragments_intact := Chronology.new t,
      active_fragments_preview := s.fragments_intact.active,
      inactive_fragments_changeset := [],
      pools_intact := Pools.new,
      pools_preview := s.pools_intact },
   { fragments := chron, pools := s.pools_preview })

/-- Rollback of a full preview (`PreviewState::rollback`): the intact
collections are restored.  With `Stash(xs)` the list is appended to the stash
— `Vec::append` drains its argument, so the loop that would remove the stashed
fragments from the intact active set iterates an empty vector and removes
nothing.  With `Unstash` the previously stashed fragments are re-inserted.
The inactive-fragments changeset is not touched. -/
def PreviewState.rollback (s : PreviewState)
    (stashing_opt : StashingOption) : PreviewState × IdleState :=
  let afterStash :
      List SimpleOrderPF × Fragments :=
    match stashing_opt with
    | .stash to_stash =>
      (s.stashed_active_fragments ++ to_stash, s.fragments_intact.active)
    | .unstash =>
      ([], s.stashed_active_fragments.foldl Fragments.insert
        s.fragments_intact.active)
  let t := s.fragments_intact.time_now
  ({ s with
      fragments_intact := Chronology.new t,
      stashed_active_fragments := afterStash.1,
      pools_intact := Pools.new },
   { fragments := { s.fragments_intact with active := afterStash.2 },
     pools := s.pools_intact })

/-- The TLB state automaton (`state.rs::TLBState`). -/
inductive TLBState where
  | Idle (st : IdleState) : TLBState
  | PartialPreview (st : PartialPreviewState) : TLBState
  | Preview (st : PreviewState) : TLBState
deriving DecidableEq, Repr

/-- External mutation guard (`mod.rs::requiring_settled_state`): the mutation
runs only in `Idle`; a preview state is a contract violation (a panic,
modelled as `none`). -/
def requiring_settled_state (st : TLBState) (f : IdleState → IdleState) :
    Option TLBState :=
  match st with
  | .Idle s => some (.Idle (f s))
  | .PartialPreview _ => Option.none
  | .Preview _ => Option.none

/-- IdleState::advance_clocks. -/
def IdleState.advance_clocks (s : IdleState) (new_time : Nat) : IdleState :=
  { s with fragments := s.fragments.advance_clocks new_time }

/-- IdleState::add_fragment. -/
def IdleState.add_fragment (s : IdleState) (fr : SimpleOrderPF) : IdleState :=
  { s with fragments := s.fragments.add_fragment fr }

/-- IdleState::remove_fragment. -/
def IdleState.remove_fragment (s : IdleState) (fr : SimpleOrderPF) : IdleState :=
  { s with fragments := s.fragments.remove_fragment fr }

/-- IdleState::update_pool. -/
def IdleState.update_pool (s : IdleState) (pool : SimpleCFMMPool) : IdleState :=
  { s with pools := s.pools.update_pool pool }

/-- IdleState::remove_pool. -/
def IdleState.remove_pool (s : IdleState) (pool : SimpleCFMMPool) : IdleState :=
  { s with pools := s.pools.remove_pool pool }

/-- External event `advance_clocks` on the TLB (`ExternalTLBEvents`). -/
def TLBState.advance_clocks (st : TLBState) (new_time : Nat) : Option TLBState :=
  requiring_settled_state st (fun s => s.advance_clocks new_time)

/-- External event `add_fragment` on the TLB (`ExternalTLBEvents`). -/
def TLBState.add_fragment (st : TLBState) (fr : SimpleOrderPF) : Option TLBState :=
  requiring_settled_state st (fun s => s.add_fragment fr)

/-- External event `remove_fragment` on the TLB (`ExternalTLBEvents`). -/
def TLBState.remove_fragment (st : TLBState) (fr : SimpleOrderPF) : Option TLBState :=
  requiring_settled_state st (fun s => s.remove_fragment fr)

/-- External event `update_pool` on the TLB (`ExternalTLBEvents`). -/
def TLBState.update_pool (st : TLBState) (pool : SimpleCFMMPool) : Option TLBState :=
  requiring_settled_state st (fun s => s.update_pool pool)

/-- External event `remove_pool` on the TLB (`ExternalTLBEvents`). -/
def TLBState.remove_pool (st : TLBState) (pool : SimpleCFMMPool) : Option TLBState :=
  requiring_settled_state st (fun s => s.remove_pool pool)

/-- Feedback `on_recipe_failed` (`TLBFeedback`): a preview state is rolled back
and the produced idle state replaces the automaton state (the stashing option
is the one handed to `rollback`). -/
def TLBState.on_recipe_failed (st : TLBState) (stashing_opt : StashingOption) :
    TLBState :=
  match st with
  | .Idle s => .Idle s
  | .PartialPreview s => .Idle (s.rollback stashing_opt).2
  | .Preview s => .Idle (s.rollback stashing_opt).2

/-- Feedback `on_recipe_succeeded` (`TLBFeedback`): a preview state is
committed and the produced idle state replaces the automaton state. -/
def TLBState.on_recipe_succeeded (st : TLBState) : TLBState :=
  match st with
  | .Idle s => .Idle s
  | .PartialPreview s => .Idle s.commit.2
  | .Preview s => .Idle s.commit.2

/-- Selection of the best fragment from either side
(`state.rs::pick_best_fr_either`): both first elements are popped; with both
sides present the heavier-or-index rule picks one and re-inserts the other. -/
def pick_best_fr_either (af : Fragments) (index_price : Option ℚ) :
    Option SimpleOrderPF × Fragments :=
  match af.bids, af.asks with
  | [], [] => (Option.none, af)
  | bid :: bids', [] => (some bid, { af with bids := bids' })
  | [], ask :: asks' => (some ask, { af with asks := asks' })
  | bid :: bids', ask :: asks' =>
    let bid_is_underpriced :=
      match index_price with
      | some ip => decide (bid.price < ip)
      | Option.none => false
    let ask_is_overpriced :=
      match index_price with
      | some ip => decide (ip < ask.price)
      | Option.none => false
    let bid_is_heavier := decide (ask.weight ≤ bid.weight)
    if (bid_is_heavier && !bid_is_underpriced) || ask_is_overpriced then
      (some bid, { asks := btree_insert ask asks', bids := bids' })
    else
      (some ask, { asks := asks', bids := btree_insert bid bids' })

/-- Conditional pick of the best fragment of one side (`state.rs::try_pick_fr`):
the first element is popped; failing the test it is re-inserted and nothing is
returned. -/
def try_pick_fr (af : Fragments) (side : SideM) (test : SimpleOrderPF → Bool) :
    Option SimpleOrderPF × Fragments :=
  match side with
  | .bid =>
    match af.bids with
    | [] => (Option.none, af)
    | best_fr :: rest =>
      if test best_fr then (some best_fr, { af with bids := rest })
      else (Option.none, { af with bids := btree_insert best_fr rest })
  | .ask =>
    match af.asks with
    | [] => (Option.none, af)
    | best_fr :: rest =>
      if test best_fr then (some best_fr, { af with asks := rest })
      else (Option.none, { af with asks := btree_insert best_fr rest })

/-- Retention of an inactive-changeset entry by the TLB: the pair is still
present either in the pending changeset or in the chronology's inactive
bucket of its activation time. -/
def TLBState.retains_inactive_entry (st : TLBState) (t : Nat)
    (fr : SimpleOrderPF) : Bool :=
  let in_bucket : Chronology → Bool := fun c =>
    match map_lookup t c.inactive with
    | some frs =>
      (match fr.side with
       | .bid => btree_contains frs.bids fr
       | .ask => btree_contains frs.asks fr)
    | Option.none => false
  match st with
  | .Idle s => in_bucket s.fragments
  | .PartialPreview s => in_bucket s.fragments_preview
  | .Preview s =>
    s.inactive_fragments_changeset.any (fun e => e.1 = t && e.2 == fr) ||
      in_bucket s.fragments_intact

/-- Constructor `SimpleOrderPF::new` (the random stable id is a parameter). -/
def SimpleOrderPF.new (source : Nat) (side : SideM) (input : Nat) (price : ℚ)
    (fee : Nat) : SimpleOrderPF :=
  { source := source,
    side := side,
    input := input,
    accumulated_output := 0,
    min_marginal_output := 0,
    price := price,
    fee := fee,
    ex_budget := 0,
    cost_hint := 10,
    bounds := .none }

/-- Whether the automaton is in the settled state. -/
def TLBState.is_idle (st : TLBState) : Bool :=
  match st with
  | .Idle _ => true
  | .PartialPreview _ => false
  | .Preview _ => false

/-- Store of the requested side of the active frontier (the `side_store`
selection of `best_fr_price` / `try_pick_fr`). -/
def Fragments.side_store (af : Fragments) (side : SideM) : List SimpleOrderPF :=
  match side with
  | .bid => af.bids
  | .ask => af.asks

/-- Containment of a fragment in the inactive bucket of a given activation
time, by the set-membership notion of the underlying `BTreeSet`. -/
def buckets_contain (m : List (Nat × Fragments)) (t : Nat)
    (fr : SimpleOrderPF) : Bool :=
  match map_lookup t m with
  | some frs =>
    (match fr.side with
     | .bid => btree_contains frs.bids fr
     | .ask => btree_contains frs.asks fr)
  | Option.none => false

/-- Strictly ascending activation keys: the invariant of the `BTreeMap` of
inactive buckets. -/
def buckets_sorted (m : List (Nat × Fragments)) : Prop :=
  List.Pairwise (fun a b => a.1 < b.1) m

/-- Base consumed from the ask-side fragment by a fragment-to-fragment fill,
read off the produced instructions (assumes `lhs` and `rhs` are on opposite
sides, as in every call site). -/
def base_consumed_from_ask (lhs : PartialFill) (rhs : SimpleOrderPF)
    (res : FillFromFragment) : Nat :=
  match lhs.target.side with
  | .bid =>
    match res.fill_rt with
    | .inr pf =>
      (match pf.target.side with
       | .ask => sub64 rhs.input pf.remaining_input
       | .bid => rhs.input)
    | .inl _ => rhs.input
  | .ask =>
    match res.fill_rt with
    | .inr pf =>
      (match pf.target.side with
       | .ask => sub64 lhs.remaining_input pf.remaining_input
       | .bid => lhs.remaining_input)
    | .inl _ => lhs.remaining_input

/-- Base credited to the bid-side fragment by a fragment-to-fragment fill,
read off the produced instructions (assumes `lhs` and `rhs` are on opposite
sides, as in every call site). -/
def base_credited_to_bid (lhs : PartialFill) (rhs : SimpleOrderPF)
    (res : FillFromFragment) : Nat :=
  match lhs.target.side with
  | .bid =>
    match res.fill_rt with
    | .inr pf =>
      (match pf.target.side with
       | .bid => sub64 pf.accumulated_output lhs.accumulated_output
       | .ask => sub64 res.term_fill_lt.added_output lhs.accumulated_output)
    | .inl _ => sub64 res.term_fill_lt.added_output lhs.accumulated_output
  | .ask =>
    match res.fill_rt with
    | .inr pf =>
      (match pf.target.side with
       | .ask => res.term_fill_lt.added_output
       | .bid => pf.accumulated_output)
    | .inl f => f.added_output

/-- Concrete ask used by the C2 counterexample. -/
def c2x_ask : SimpleOrderPF := SimpleOrderPF.new 0 .ask 1000 (3 / 10) 1000

/-- Concrete bid used by the C2 counterexample. -/
def c2x_bid : SimpleOrderPF := SimpleOrderPF.new 1 .bid 500 (1 / 2) 1000

/-- Concrete fragment sitting in an inactive bucket, used by the C3
counterexample. -/
def c3x_fr : SimpleOrderPF :=
  { SimpleOrderPF.new 7 .ask 100 1 10 with bounds := .after 5 }

/-- Concrete chronology with one inactive bucket at time 5, used by the C3
counterexample. -/
def c3x_chron : Chronology :=
  { time_now := 0,
    active := Fragments.new,
    inactive := [(5, { asks := [c3x_fr], bids := [] })] }

/-- Concrete active fragment that expires at time 3, used by the C3 witness
to exercise the EOL-drop direction. -/
def c3w_fr : SimpleOrderPF :=
  { SimpleOrderPF.new 8 .ask 100 1 10 with bounds := .until 3 }

/-- Concrete chronology whose single active ask expires before time 5, used
by the C3 witness. -/
def c3w_chron : Chronology :=
  { time_now := 0,
    active := { asks := [c3w_fr], bids := [] },
    inactive := [] }

/-- Concrete future-active fragment used by the C4 counterexample. -/
def c4x_fr : SimpleOrderPF :=
  { SimpleOrderPF.new 3 .ask 100 1 10 with bounds := .after 1100 }

/-- Concrete preview state holding one inactive-changeset entry, used by the
C4 counterexample. -/
def c4x_preview : PreviewState :=
  { PreviewState.new 1000 with
    inactive_fragments_changeset := [(1100, c4x_fr)] }

/-- Side-dispatched set membership in a `Fragments` pair, matching the
membership notion used for inactive buckets. -/
def frag_set_contains (frs : Fragments) (fr : SimpleOrderPF) : Bool :=
  match fr.side with
  | .bid => btree_contains frs.bids fr
  | .ask => btree_contains frs.asks fr

/-- Concrete ask used by the C1 witness. -/
def c1w_ask : SimpleOrderPF := SimpleOrderPF.new 0 .ask 1000 (3 / 10) 4000

/-- Concrete bid used by the C1 witness. -/
def c1w_bid : SimpleOrderPF := SimpleOrderPF.new 1 .bid 360 (1 / 2) 2000

/-- Concrete partial-preview state used by the C6 witness. -/
def c6w_pp : PartialPreviewState :=
  { fragments_preview := Chronology.new 0,
    consumed_active_fragments := [],
    stashed_active_fragments := [],
    pools_intact := Pools.new,
    pools_preview := Pools.new }

/-- Concrete ask used by the C7 witness. -/
def c7w_ask : SimpleOrderPF := SimpleOrderPF.new 0 .ask 1000 (37 / 100) 1000

/-- Concrete bid used by the C7 witness. -/
def c7w_bid : SimpleOrderPF := SimpleOrderPF.new 1 .bid 370 (37 / 100) 1000

/-- Concrete ask used by the C8 witness. -/
def c8w_ask : SimpleOrderPF := SimpleOrderPF.new 0 .ask 100 (37 / 100) 100

/-- Concrete bid used by the C8 witness. -/
def c8w_bid : SimpleOrderPF := SimpleOrderPF.new 1 .bid 100 (38 / 100) 200

/-- Concrete active frontier used by the C8 witness. -/
def c8w_af : Fragments := { asks := [c8w_ask], bids := [c8w_bid] }

/-- Concrete active frontier used by the C10 witness. -/
def c10w_af : Fragments :=
  { asks := [], bids := [SimpleOrderPF.new 2 .bid 50 (2 / 5) 70] }

theorem sub64_add64_cancel (a b : Nat) (ha : a < 2 ^ 64) (hb : b < 2 ^ 64) :
    sub64 (add64 a b) a = b := by
  simp only [add64, sub64]
  split_ifs <;> omega

theorem to_unsigned_of_nonneg {r : ℚ} (h : 0 ≤ r) : to_unsigned r = r := by
  simp only [to_unsigned, if_pos (Rat.num_nonneg.mpr h)]

theorem truncated_mem {v low high : ℚ} (h : low ≤ high) :
    low ≤ truncated v low high ∧ truncated v low high ≤ high := by
  unfold truncated
  split_ifs with h1 h2
  · exact ⟨h1.1, h1.2⟩
  · exact ⟨le_refl low, h⟩
  · exact ⟨h, le_refl high⟩

theorem truncated_dist {v low high p : ℚ} (hl : low ≤ p) (hh : p ≤ high) :
    |truncated v low high - p| ≤ |v - p| := by
  unfold truncated
  split_ifs with h1 h2
  · exact le_refl _
  · rw [abs_of_nonpos (by linarith), abs_of_nonpos (by linarith)]
    linarith
  · push_neg at h1
    have hv : high < v := h1 (le_of_not_lt h2)
    rw [abs_of_nonneg (by linarith), abs_of_nonneg (by linarith)]
    linarith

theorem cmp_self (f : SimpleOrderPF) : f.cmp f = Ordering.eq := by
  simp [SimpleOrderPF.cmp, qcmp, lt_irrefl, Ordering.then, Nat.compare_eq_eq]

theorem mem_btree_insert {g : SimpleOrderPF} {l : List SimpleOrderPF}
    (f : SimpleOrderPF) (h : g ∈ l) : g ∈ btree_insert f l := by
  induction l with
  | nil => cases h
  | cons x xs ih =>
    cases hcmp : SimpleOrderPF.cmp f x <;> simp only [btree_insert, hcmp]
    · exact List.mem_cons_of_mem f h
    · exact h
    · rcases List.mem_cons.mp h with rfl | hx
      · exact List.mem_cons_self _ _
      · exact List.mem_cons_of_mem _ (ih hx)

theorem btree_contains_cons (x : SimpleOrderPF) (xs : List SimpleOrderPF)
    (g : SimpleOrderPF) :
    btree_contains (x :: xs) g =
      (SimpleOrderPF.cmp g x == Ordering.eq || btree_contains xs g) := by
  simp [btree_contains]

theorem ord_beq_eq_true : (Ordering.eq == Ordering.eq) = true := rfl

theorem btree_contains_insert_self (f : SimpleOrderPF)
    (l : List SimpleOrderPF) : btree_contains (btree_insert f l) f = true := by
  induction l with
  | nil => simp [btree_insert, btree_contains, cmp_self, ord_beq_eq_true]
  | cons x xs ih =>
    cases hcmp : SimpleOrderPF.cmp f x <;>
      simp only [btree_insert, hcmp, btree_contains_cons]
    · simp [cmp_self, ord_beq_eq_true]
    · simp [hcmp, ord_beq_eq_true]
    · simp only [ih, Bool.or_true]

theorem btree_contains_insert_mono {g : SimpleOrderPF} {l : List SimpleOrderPF}
    (f : SimpleOrderPF) (h : btree_contains l g = true) :
    btree_contains (btree_insert f l) g = true := by
  induction l with
  | nil => simp [btree_contains] at h
  | cons x xs ih =>
    rw [btree_contains_cons] at h
    cases hcmp : SimpleOrderPF.cmp f x <;>
      simp only [btree_insert, hcmp, btree_contains_cons]
    · simp only [Bool.or_eq_true] at h ⊢
      rcases h with h | h
      · exact Or.inr (Or.inl h)
      · exact Or.inr (Or.inr h)
    · exact h
    · simp only [Bool.or_eq_true] at h ⊢
      rcases h with h | h
      · exact Or.inl h
      · exact Or.inr (ih h)

theorem btree_insert_sorted_head {x : SimpleOrderPF} {xs : List SimpleOrderPF}
    (h : btree_sorted (x :: xs)) : btree_insert x xs = x :: xs := by
  cases xs with
  | nil => rfl
  | cons y ys =>
    have hxy : SimpleOrderPF.cmp x y = Ordering.lt :=
      (List.chain'_cons.mp h).1
    simp [btree_insert, hxy]

theorem foldl_pres {α β : Type} (step : β → α → β) (P : β → Prop)
    (h : ∀ b a, P b → P (step b a)) :
    ∀ (l : List α) (b : β), P b → P (l.foldl step b) := by
  intro l
  induction l with
  | nil => intro b hb; exact hb
  | cons a l ih => intro b hb; exact ih _ (h b a hb)

theorem foldl_gains {α β : Type} (step : β → α → β) (P : β → Prop)
    (hpres : ∀ b a, P b → P (step b a)) (a₀ : α)
    (hgain : ∀ b, P (step b a₀)) :
    ∀ (l : List α) (b : β), a₀ ∈ l → P (l.foldl step b) := by
  intro l
  induction l with
  | nil => intro b hb; cases hb
  | cons a l ih =>
    intro b hb
    rcases List.mem_cons.mp hb with rfl | hmem
    · exact foldl_pres step P hpres l _ (hgain b)
    · exact ih _ hmem

theorem foldl_pres_mem {α β : Type} (step : β → α → β) (P : β → Prop) :
    ∀ l : List α, (∀ b a, a ∈ l → P b → P (step b a)) →
      ∀ b, P b → P (l.foldl step b) := by
  intro l
  induction l with
  | nil => intro _ b hb; exact hb
  | cons a l ih =>
    intro h b hb
    exact ih (fun b' a' ha' => h b' a' (List.mem_cons_of_mem _ ha')) _
      (h b a (List.mem_cons_self _ _) hb)

theorem with_updated_time_active_eq {f g : SimpleOrderPF} {t : Nat}
    (h : f.with_updated_time t = .Active g) : g = f := by
  unfold SimpleOrderPF.with_updated_time at h
  by_cases hc : f.bounds.contain t
  · rw [if_pos hc] at h
    exact (StateTrans.Active.inj h).symm
  · rw [if_neg hc] at h
    cases h

theorem cmp_eq_symm {a b : SimpleOrderPF}
    (h : SimpleOrderPF.cmp a b = Ordering.eq) :
    SimpleOrderPF.cmp b a = Ordering.eq := by
  unfold SimpleOrderPF.cmp qcmp at h ⊢
  by_cases h1 : a.price < b.price
  · simp [h1, Ordering.then] at h
  · by_cases h2 : b.price < a.price
    · simp [h1, h2, Ordering.then] at h
    · simp only [h1, h2, if_false, Ordering.then] at h ⊢
      rw [Nat.compare_eq_eq] at h ⊢
      omega

theorem btree_contains_insert_of_ne {fr : SimpleOrderPF}
    (g : SimpleOrderPF) (hne : SimpleOrderPF.cmp fr g ≠ Ordering.eq) :
    ∀ {l : List SimpleOrderPF}, btree_contains l fr = false →
      btree_contains (btree_insert g l) fr = false := by
  have hbeq : (SimpleOrderPF.cmp fr g == Ordering.eq) = false := by
    cases hc : SimpleOrderPF.cmp fr g with
    | eq => exact absurd hc hne
    | lt => rfl
    | gt => rfl
  intro l
  induction l with
  | nil =>
    intro _
    rw [show btree_insert g [] = [g] from rfl, btree_contains_cons, hbeq]
    rfl
  | cons x xs ih =>
    intro h
    rw [btree_contains_cons] at h
    rcases Bool.or_eq_false_iff.mp h with ⟨hx, hxs⟩
    cases hcmp : SimpleOrderPF.cmp g x <;>
      simp only [btree_insert, hcmp, btree_contains_cons]
    · rw [hbeq, hx, hxs]
      rfl
    · rw [hx, hxs]
      rfl
    · rw [hx, ih hxs]
      rfl

/-- C5: `ExecutionRecipe::try_from` returns `ok` exactly when the recipe is
complete and satisfied; a complete but unsatisfied recipe yields an error
carrying exactly the unsatisfied fragments; an incomplete recipe yields an
error without a list.  Completeness and satisfaction are characterized against
the recipe's contents. -/
theorem execution_recipe_try_from_spec (rec : IntermediateRecipe) :
    ((∃ instrs, ExecutionRecipe.try_from rec = .ok instrs) ↔
      rec.is_complete = true ∧ rec.unsatisfied_fragments = []) ∧
    (rec.is_complete = true →
      rec.unsatisfied_fragments ≠ [] →
      ExecutionRecipe.try_from rec = .error (some rec.unsatisfied_fragments)) ∧
    (rec.is_complete = false →
      ExecutionRecipe.try_from rec = .error Option.none) ∧
    (rec.is_complete = true ↔
      2 ≤ rec.terminal.length ∨
        (0 < rec.terminal.length ∧ rec.remainder.isSome = true)) ∧
    (rec.unsatisfied_fragments = [] ↔
      ((∀ fill, TerminalInstruction.Fill fill ∈ rec.terminal →
          fill.target_fr.min_marginal_output ≤ fill.added_output) ∧
        (∀ pf, rec.remainder = some pf →
          pf.target.min_marginal_output ≤ pf.accumulated_output))) ∧
    (∀ fr, fr ∈ rec.unsatisfied_fragments ↔
      ((∃ fill, TerminalInstruction.Fill fill ∈ rec.terminal ∧
          fill.target_fr = fr ∧
          fill.added_output < fill.target_fr.min_marginal_output) ∨
        (∃ pf, rec.remainder = some pf ∧ pf.target = fr ∧
          pf.accumulated_output < pf.target.min_marginal_output))) := by
  refine ⟨?_, ?_, ?_, ?_, ?_, ?_⟩
  · constructor
    · rintro ⟨instrs, h⟩
      by_cases hc : rec.is_complete
      · by_cases hu : rec.unsatisfied_fragments.isEmpty
        · exact ⟨hc, List.isEmpty_iff.mp hu⟩
        · simp [ExecutionRecipe.try_from, hc, hu] at h
      · simp [ExecutionRecipe.try_from, hc] at h
    · rintro ⟨hc, hu⟩
      refine ⟨rec.terminal ++
        (match rec.remainder with
         | some rem => [TerminalInstruction.Fill rem.toFill]
         | Option.none => []), ?_⟩
      simp [ExecutionRecipe.try_from, hc, hu]
  · intro hc hu
    have hne : rec.unsatisfied_fragments.isEmpty = false := by
      rcases h : rec.unsatisfied_fragments with _ | ⟨a, l⟩
      · exact absurd h hu
      · rfl
    simp [ExecutionRecipe.try_from, hc, hne]
  · intro hc
    simp [ExecutionRecipe.try_from, hc]
  · simp only [IntermediateRecipe.is_complete, Bool.or_eq_true,
      Bool.and_eq_true, decide_eq_true_eq]
  · unfold IntermediateRecipe.unsatisfied_fragments
    rw [List.append_eq_nil]
    constructor
    · rintro ⟨h1, h2⟩
      constructor
      · intro fill hf
        by_contra hlt
        push_neg at hlt
        have hnone := List.filterMap_eq_nil_iff.mp h1 _ hf
        simp [hlt] at hnone
      · intro pf hpf
        rw [hpf] at h2
        by_contra hlt
        push_neg at hlt
        simp [hlt] at h2
    · rintro ⟨h1, h2⟩
      constructor
      · rw [List.filterMap_eq_nil_iff]
        intro a ha
        cases a with
        | Fill fill =>
          simp only [if_neg (not_lt.mpr (h1 fill ha))]
        | Swap s => rfl
      · cases hrem : rec.remainder with
        | none => rfl
        | some pf =>
          simp only [if_neg (not_lt.mpr (h2 pf hrem))]
  · intro fr
    unfold IntermediateRecipe.unsatisfied_fragments
    rw [List.mem_append, List.mem_filterMap]
    constructor
    · rintro (⟨a, ha, hfa⟩ | hrem)
      · cases a with
        | Fill fill =>
          left
          by_cases hlt : fill.added_output < fill.target_fr.min_marginal_output
          · simp only [hlt, if_true] at hfa
            exact ⟨fill, ha, Option.some.inj hfa, hlt⟩
          · simp [hlt] at hfa
        | Swap s => cases hfa
      · right
        cases hrem' : rec.remainder with
        | none =>
          rw [hrem'] at hrem
          cases hrem
        | some pf =>
          rw [hrem'] at hrem
          by_cases hlt : pf.accumulated_output < pf.target.min_marginal_output
          · simp only [hlt, if_true] at hrem
            rcases List.mem_singleton.mp hrem with rfl
            exact ⟨pf, rfl, rfl, hlt⟩
          · simp [hlt] at hrem
    · rintro (⟨fill, hmem, rfl, hlt⟩ | ⟨pf, hrem, rfl, hlt⟩)
      · exact Or.inl ⟨TerminalInstruction.Fill fill, hmem, by simp [hlt]⟩
      · right
        rw [hrem]
        simp [hlt]

/-- C5 witness: the empty recipe is incomplete and `try_from` rejects it with
no unsatisfied-fragment list. -/
theorem execution_recipe_try_from_spec_witness :
    ExecutionRecipe.try_from ⟨[], Option.none⟩ = .error Option.none :=
  (execution_recipe_try_from_spec ⟨[], Option.none⟩).2.2.1 rfl

/-- C6: each external mutation of the TLB panics (is refused) exactly in the
`PartialPreview` and `Preview` states and is applied to the idle state
otherwise. -/
theorem external_mutations_require_idle (st : TLBState) (t : Nat)
    (fr : SimpleOrderPF) (pool : SimpleCFMMPool) :
    (st.is_idle = false →
      st.advance_clocks t = Option.none ∧
      st.add_fragment fr = Option.none ∧
      st.remove_fragment fr = Option.none ∧
      st.update_pool pool = Option.none ∧
      st.remove_pool pool = Option.none) ∧
    (∀ s, st = .Idle s →
      st.advance_clocks t = some (.Idle (s.advance_clocks t)) ∧
      st.add_fragment fr = some (.Idle (s.add_fragment fr)) ∧
      st.remove_fragment fr = some (.Idle (s.remove_fragment fr)) ∧
      st.update_pool pool = some (.Idle (s.update_pool pool)) ∧
      st.remove_pool pool = some (.Idle (s.remove_pool pool))) := by
  cases st with
  | Idle s =>
    refine ⟨fun h => by simp [TLBState.is_idle] at h, ?_⟩
    rintro s' hs'
    cases hs'
    simp [TLBState.advance_clocks, TLBState.add_fragment,
      TLBState.remove_fragment, TLBState.update_pool, TLBState.remove_pool,
      requiring_settled_state]
  | PartialPreview s =>
    refine ⟨fun _ => ?_, fun s' hs' => by cases hs'⟩
    simp [TLBState.advance_clocks, TLBState.add_fragment,
      TLBState.remove_fragment, TLBState.update_pool, TLBState.remove_pool,
      requiring_settled_state]
  | Preview s =>
    refine ⟨fun _ => ?_, fun s' hs' => by cases hs'⟩
    simp [TLBState.advance_clocks, TLBState.add_fragment,
      TLBState.remove_fragment, TLBState.update_pool, TLBState.remove_pool,
      requiring_settled_state]

/-- C6 witness: a concrete partial-preview state refuses `advance_clocks`. -/
theorem external_mutations_require_idle_witness :
    (TLBState.PartialPreview c6w_pp).advance_clocks 5 = Option.none :=
  ((external_mutations_require_idle (.PartialPreview c6w_pp) 5
    (SimpleOrderPF.new 0 .ask 1 1 1) ⟨0, 1, 1, 997⟩).1 rfl).1

/-- C10: `try_pick_fr` yields a fragment exactly when the single best fragment
of the requested side exists and satisfies the predicate; whenever nothing is
yielded the fragment stores are unchanged. -/
theorem try_pick_fr_spec (af : Fragments) (side : SideM)
    (test : SimpleOrderPF → Bool) :
    (∀ f, (try_pick_fr af side test).1 = some f ↔
      (af.side_store side).head? = some f ∧ test f = true) ∧
    (btree_sorted (af.side_store side) →
      (try_pick_fr af side test).1 = Option.none →
      (try_pick_fr af side test).2 = af) := by
  cases side with
  | bid =>
    cases hb : af.bids with
    | nil =>
      refine ⟨fun f => ?_, fun _ _ => ?_⟩
      · simp [try_pick_fr, hb, Fragments.side_store]
      · simp [try_pick_fr, hb]
    | cons x xs =>
      constructor
      · intro f
        by_cases ht : test x
        · simp only [try_pick_fr, hb, ht, if_true, Fragments.side_store,
            List.head?_cons]
          constructor
          · rintro h
            rcases Option.some.inj h with rfl
            exact ⟨rfl, ht⟩
          · rintro ⟨h, _⟩
            exact h
        · simp only [try_pick_fr, hb, ht, if_false, Fragments.side_store,
            List.head?_cons]
          constructor
          · rintro h
            cases h
          · rintro ⟨h, htest⟩
            rcases Option.some.inj h with rfl
            exact absurd htest ht
      · intro hsorted hnone
        rw [Fragments.side_store, hb] at hsorted
        by_cases ht : test x
        · simp [try_pick_fr, hb, ht] at hnone
        · simp only [try_pick_fr, hb, ht, Bool.false_eq_true, if_false,
            btree_insert_sorted_head hsorted]
          rw [← hb]
  | ask =>
    cases hb : af.asks with
    | nil =>
      refine ⟨fun f => ?_, fun _ _ => ?_⟩
      · simp [try_pick_fr, hb, Fragments.side_store]
      · simp [try_pick_fr, hb]
    | cons x xs =>
      constructor
      · intro f
        by_cases ht : test x
        · simp only [try_pick_fr, hb, ht, if_true, Fragments.side_store,
            List.head?_cons]
          constructor
          · rintro h
            rcases Option.some.inj h with rfl
            exact ⟨rfl, ht⟩
          · rintro ⟨h, _⟩
            exact h
        · simp only [try_pick_fr, hb, ht, if_false, Fragments.side_store,
            List.head?_cons]
          constructor
          · rintro h
            cases h
          · rintro ⟨h, htest⟩
            rcases Option.some.inj h with rfl
            exact absurd htest ht
      · intro hsorted hnone
        rw [Fragments.side_store, hb] at hsorted
        by_cases ht : test x
        · simp [try_pick_fr, hb, ht] at hnone
        · simp only [try_pick_fr, hb, ht, Bool.false_eq_true, if_false,
            btree_insert_sorted_head hsorted]
          rw [← hb]

/-- C10 witness: on a concrete frontier whose best bid passes the predicate,
`try_pick_fr` yields exactly that bid. -/
theorem try_pick_fr_spec_witness :
    (try_pick_fr c10w_af .bid (fun _ => true)).1 =
      some (SimpleOrderPF.new 2 .bid 50 (2 / 5) 70) :=
  ((try_pick_fr_spec c10w_af .bid (fun _ => true)).1 _).mpr ⟨rfl, rfl⟩

/-- C9 counterexample: `linear_output` silently wraps — at input 2 and ask
price 2^64, the narrowing to `u64` returns 0 while the exact floored quotient
is 2^65. -/
theorem linear_output_wraps_counterexample :
    linear_output 2 (.ask (18446744073709551616 : ℚ)) = 0 ∧
    2 * (18446744073709551616 : ℚ).num.toNat /
        (18446744073709551616 : ℚ).den = 36893488147419103232 := by
  have hn : (18446744073709551616 : ℚ).num = 18446744073709551616 := by
    norm_num
  have hd : (18446744073709551616 : ℚ).den = 1 := by norm_num
  constructor
  · simp only [linear_output, wrap64, wrap128, hn, hd]
    decide
  · rw [hn, hd]
    decide

/-- C9 amended: whenever the widened 128-bit product does not overflow,
`linear_output` returns the exact mathematical floored quotient if and only
if that quotient fits in 64 bits; otherwise the quotient is reduced modulo
2^64 by the `as u64` narrowing. -/
theorem linear_output_exact (input : Nat) (p : ℚ) :
    (input * p.num.toNat < 2 ^ 128 →
      (linear_output input (.ask p) = input * p.num.toNat / p.den ↔
        input * p.num.toNat / p.den < 2 ^ 64)) ∧
    (input * p.den < 2 ^ 128 →
      (linear_output input (.bid p) = input * p.den / p.num.toNat ↔
        input * p.den / p.num.toNat < 2 ^ 64)) := by
  constructor
  · intro h1
    simp only [linear_output, wrap64, wrap128, Nat.mod_eq_of_lt h1]
    generalize input * p.num.toNat / p.den = q
    omega
  · intro h1
    simp only [linear_output, wrap64, wrap128, Nat.mod_eq_of_lt h1]
    generalize input * p.den / p.num.toNat = q
    omega

/-- C9 witness: at input 1000 and ask price 37/100 the bounds hold and the
output is the exact floored quotient. -/
theorem linear_output_exact_witness :
    1000 * ((37 : ℚ) / 100).num.toNat < 2 ^ 128 ∧
    1000 * ((37 : ℚ) / 100).num.toNat / ((37 : ℚ) / 100).den < 2 ^ 64 ∧
    linear_output 1000 (.ask ((37 : ℚ) / 100)) =
      1000 * ((37 : ℚ) / 100).num.toNat / ((37 : ℚ) / 100).den := by
  have hn : ((37 : ℚ) / 100).num = 37 := by norm_num
  have hd : ((37 : ℚ) / 100).den = 100 := by norm_num
  have h1 : 1000 * ((37 : ℚ) / 100).num.toNat < 2 ^ 128 := by
    rw [hn]; decide
  have h2 : 1000 * ((37 : ℚ) / 100).num.toNat / ((37 : ℚ) / 100).den < 2 ^ 64 := by
    rw [hn, hd]; decide
  exact ⟨h1, h2, ((linear_output_exact 1000 _).1 h1).mpr h2⟩

/-- C3 counterexample: a fragment bucketed at activation time 5 is not moved
into the active set by `advance_clocks(6)` — only the bucket keyed exactly by
the new time is activated, earlier buckets stay inactive. -/
theorem advance_clocks_skips_earlier_bucket :
    (c3x_chron.advance_clocks 6).active.asks = [] ∧
    (c3x_chron.advance_clocks 6).active.bids = [] ∧
    (c3x_chron.advance_clocks 6).inactive =
      [(5, { asks := [c3x_fr], bids := [] })] ∧
    c3x_fr.bounds.lower_bound = some 5 :=
  ⟨rfl, rfl, rfl, rfl⟩

/-- C3 amended: after `advance_clocks(t)` the clock equals `t`, the bucket
keyed exactly `t` (and only it) is removed from the inactive map and its
fragments all become active, and every previously active fragment surviving
`with_updated_time(t)` stays active. -/
theorem advance_clocks_spec (c : Chronology) (t : Nat) :
    (c.advance_clocks t).time_now = t ∧
    (c.advance_clocks t).inactive = map_remove t c.inactive ∧
    (∀ fr frs, map_lookup t c.inactive = some frs →
      fr ∈ frs.asks → fr ∈ (c.advance_clocks t).active.asks) ∧
    (∀ fr frs, map_lookup t c.inactive = some frs →
      fr ∈ frs.bids → fr ∈ (c.advance_clocks t).active.bids) ∧
    (∀ fr, fr ∈ c.active.asks → fr.with_updated_time t = .Active fr →
      btree_contains (c.advance_clocks t).active.asks fr = true) ∧
    (∀ fr, fr ∈ c.active.bids → fr.with_updated_time t = .Active fr →
      btree_contains (c.advance_clocks t).active.bids fr = true) ∧
    (∀ fr, fr ∈ c.active.asks → fr.with_updated_time t = .EOL →
      (∀ g ∈ c.active.asks,
        SimpleOrderPF.cmp g fr = Ordering.eq → g = fr) →
      btree_contains
        ((map_lookup t c.inactive).getD Fragments.new).asks fr = false →
      btree_contains (c.advance_clocks t).active.asks fr = false) ∧
    (∀ fr, fr ∈ c.active.bids → fr.with_updated_time t = .EOL →
      (∀ g ∈ c.active.bids,
        SimpleOrderPF.cmp g fr = Ordering.eq → g = fr) →
      btree_contains
        ((map_lookup t c.inactive).getD Fragments.new).bids fr = false →
      btree_contains (c.advance_clocks t).active.bids fr = false) := by
  refine ⟨rfl, rfl, ?_, ?_, ?_, ?_, ?_, ?_⟩
  · intro fr frs hlk hmem
    simp only [Chronology.advance_clocks, hlk, Option.getD_some]
    refine foldl_pres _ (fun l => fr ∈ l) ?_ _ _ hmem
    intro b a hb
    cases a.with_updated_time t with
    | Active g => exact mem_btree_insert g hb
    | EOL => exact hb
  · intro fr frs hlk hmem
    simp only [Chronology.advance_clocks, hlk, Option.getD_some]
    refine foldl_pres _ (fun l => fr ∈ l) ?_ _ _ hmem
    intro b a hb
    cases a.with_updated_time t with
    | Active g => exact mem_btree_insert g hb
    | EOL => exact hb
  · intro fr hmem hact
    simp only [Chronology.advance_clocks]
    refine foldl_gains _ (fun l => btree_contains l fr = true) ?_ fr ?_ _ _ hmem
    · intro b a hb
      cases a.with_updated_time t with
      | Active g => exact btree_contains_insert_mono g hb
      | EOL => exact hb
    · intro b
      rw [hact]
      exact btree_contains_insert_self fr b
  · intro fr hmem hact
    simp only [Chronology.advance_clocks]
    refine foldl_gains _ (fun l => btree_contains l fr = true) ?_ fr ?_ _ _ hmem
    · intro b a hb
      cases a.with_updated_time t with
      | Active g => exact btree_contains_insert_mono g hb
      | EOL => exact hb
    · intro b
      rw [hact]
      exact btree_contains_insert_self fr b
  · intro fr _hmem heol huniq hbucket
    simp only [Chronology.advance_clocks]
    refine foldl_pres_mem _ (fun l => btree_contains l fr = false) _ ?_ _
      hbucket
    intro b a hain hb
    cases ha : a.with_updated_time t with
    | EOL => exact hb
    | Active g =>
      have hga : g = a := with_updated_time_active_eq ha
      rw [hga]
      refine btree_contains_insert_of_ne a ?_ hb
      intro hceq
      have haf : a = fr := huniq a hain (cmp_eq_symm hceq)
      rw [haf, heol] at ha
      cases ha
  · intro fr _hmem heol huniq hbucket
    simp only [Chronology.advance_clocks]
    refine foldl_pres_mem _ (fun l => btree_contains l fr = false) _ ?_ _
      hbucket
    intro b a hain hb
    cases ha : a.with_updated_time t with
    | EOL => exact hb
    | Active g =>
      have hga : g = a := with_updated_time_active_eq ha
      rw [hga]
      refine btree_contains_insert_of_ne a ?_ hb
      intro hceq
      have haf : a = fr := huniq a hain (cmp_eq_symm hceq)
      rw [haf, heol] at ha
      cases ha

/-- C3 witness: advancing exactly onto the bucket key activates its fragment,
and an active fragment whose bounds end before the new time is dropped. -/
theorem advance_clocks_spec_witness :
    c3x_fr ∈ (c3x_chron.advance_clocks 5).active.asks ∧
    btree_contains (c3w_chron.advance_clocks 5).active.asks c3w_fr = false := by
  constructor
  · exact (advance_clocks_spec c3x_chron 5).2.2.1 c3x_fr
      { asks := [c3x_fr], bids := [] } rfl (List.mem_singleton.mpr rfl)
  · refine (advance_clocks_spec c3w_chron 5).2.2.2.2.2.2.1 c3w_fr
      (List.mem_singleton.mpr rfl) rfl ?_ rfl
    intro g hg _
    exact List.mem_singleton.mp hg

theorem map_lookup_cons (k' : Nat) (frs : Fragments)
    (rest : List (Nat × Fragments)) (t : Nat) :
    map_lookup t ((k', frs) :: rest) =
      if t = k' then some frs else map_lookup t rest := rfl

theorem buckets_contain_intro {m : List (Nat × Fragments)} {t : Nat}
    {fr : SimpleOrderPF} {frs : Fragments} (hl : map_lookup t m = some frs)
    (h : frag_set_contains frs fr = true) : buckets_contain m t fr = true := by
  unfold buckets_contain
  rw [hl]
  exact h

theorem buckets_contain_elim {m : List (Nat × Fragments)} {t : Nat}
    {fr : SimpleOrderPF} (h : buckets_contain m t fr = true) :
    ∃ frs, map_lookup t m = some frs ∧ frag_set_contains frs fr = true := by
  unfold buckets_contain at h
  rcases hl : map_lookup t m with _ | frs
  · rw [hl] at h
    simp at h
  · rw [hl] at h
    exact ⟨frs, rfl, h⟩

theorem frag_set_contains_insert_self (frs : Fragments) (fr : SimpleOrderPF) :
    frag_set_contains (frs.insert fr) fr = true := by
  cases hs : fr.side <;>
    simp only [frag_set_contains, Fragments.insert, hs] <;>
    exact btree_contains_insert_self fr _

theorem frag_set_contains_insert_mono (frs : Fragments) (g fr : SimpleOrderPF)
    (h : frag_set_contains frs fr = true) :
    frag_set_contains (frs.insert g) fr = true := by
  cases hs : fr.side <;> cases hg : g.side <;>
    simp only [frag_set_contains, Fragments.insert, hs, hg] at h ⊢ <;>
    first
      | exact btree_contains_insert_mono g h
      | exact h

theorem map_lookup_mem {t : Nat} {v : Fragments} :
    ∀ {m : List (Nat × Fragments)}, map_lookup t m = some v → (t, v) ∈ m := by
  intro m
  induction m with
  | nil => intro h; cases h
  | cons e rest ih =>
    intro h
    rcases e with ⟨k', v'⟩
    by_cases hk : t = k'
    · subst hk
      simp only [map_lookup, if_pos rfl] at h
      rcases Option.some.inj h with rfl
      exact List.mem_cons_self _ _
    · simp only [map_lookup, if_neg hk] at h
      exact List.mem_cons_of_mem _ (ih h)

theorem bucket_insert_contains_self (k : Nat) (fr : SimpleOrderPF) :
    ∀ m : List (Nat × Fragments),
      buckets_contain (bucket_insert k fr m) k fr = true := by
  intro m
  induction m with
  | nil =>
    simp only [bucket_insert, buckets_contain, map_lookup, if_pos rfl]
    exact frag_set_contains_insert_self _ fr
  | cons e rest ih =>
    rcases e with ⟨k', frs⟩
    by_cases h1 : k < k'
    · simp only [bucket_insert, if_pos h1, buckets_contain, map_lookup,
        if_pos rfl]
      exact frag_set_contains_insert_self _ fr
    · by_cases h2 : k = k'
      · simp only [bucket_insert, if_neg h1, if_pos h2, buckets_contain,
          map_lookup, if_pos h2]
        exact frag_set_contains_insert_self _ fr
      · simp only [bucket_insert, if_neg h1, if_neg h2] at ih ⊢
        simp only [buckets_contain, map_lookup, if_neg h2]
        exact ih

theorem bucket_insert_contains_mono (k : Nat) (g : SimpleOrderPF)
    {t : Nat} {fr : SimpleOrderPF} :
    ∀ {m : List (Nat × Fragments)}, buckets_sorted m →
      buckets_contain m t fr = true →
      buckets_contain (bucket_insert k g m) t fr = true := by
  intro m
  induction m with
  | nil =>
    intro _ h
    rcases buckets_contain_elim h with ⟨frs, hl, _⟩
    cases hl
  | cons e rest ih =>
    rcases e with ⟨k', frs⟩
    intro hsorted h
    have hpair := List.pairwise_cons.mp hsorted
    rcases buckets_contain_elim h with ⟨v, hl, hc⟩
    rw [map_lookup_cons] at hl
    by_cases ht : t = k'
    · rw [if_pos ht] at hl
      rcases Option.some.inj hl with rfl
      by_cases h1 : k < k'
      · refine buckets_contain_intro ?_ hc
        have hne : t ≠ k := by omega
        simp only [bucket_insert, if_pos h1]
        rw [map_lookup_cons, if_neg hne, map_lookup_cons, if_pos ht]
      · by_cases h2 : k = k'
        · refine buckets_contain_intro ?_
            (frag_set_contains_insert_mono frs g fr hc)
          simp only [bucket_insert, if_neg h1, if_pos h2]
          rw [map_lookup_cons, if_pos ht]
        · refine buckets_contain_intro ?_ hc
          simp only [bucket_insert, if_neg h1, if_neg h2]
          rw [map_lookup_cons, if_pos ht]
    · rw [if_neg ht] at hl
      have htk : k' < t := hpair.1 _ (map_lookup_mem hl)
      by_cases h1 : k < k'
      · refine buckets_contain_intro ?_ hc
        have hne : t ≠ k := by omega
        simp only [bucket_insert, if_pos h1]
        rw [map_lookup_cons, if_neg hne, map_lookup_cons, if_neg ht]
        exact hl
      · by_cases h2 : k = k'
        · refine buckets_contain_intro ?_ hc
          simp only [bucket_insert, if_neg h1, if_pos h2]
          rw [map_lookup_cons, if_neg ht]
          exact hl
        · have hrec := ih hpair.2 (buckets_contain_intro hl hc)
          rcases buckets_contain_elim hrec with ⟨v', hl', hc'⟩
          refine buckets_contain_intro ?_ hc'
          simp only [bucket_insert, if_neg h1, if_neg h2]
          rw [map_lookup_cons, if_neg ht]
          exact hl'

theorem mem_bucket_insert_key (k : Nat) (fr : SimpleOrderPF) :
    ∀ {m : List (Nat × Fragments)} {x : Nat × Fragments},
      x ∈ bucket_insert k fr m → x.1 = k ∨ ∃ y ∈ m, x.1 = y.1 := by
  intro m
  induction m with
  | nil =>
    intro x hx
    simp only [bucket_insert] at hx
    rcases List.mem_singleton.mp hx with rfl
    exact Or.inl rfl
  | cons e rest ih =>
    rcases e with ⟨k', frs⟩
    intro x hx
    by_cases h1 : k < k'
    · simp only [bucket_insert, if_pos h1] at hx
      rcases List.mem_cons.mp hx with rfl | hx'
      · exact Or.inl rfl
      · exact Or.inr ⟨x, hx', rfl⟩
    · by_cases h2 : k = k'
      · simp only [bucket_insert, if_neg h1, if_pos h2] at hx
        rcases List.mem_cons.mp hx with rfl | hx'
        · exact Or.inr ⟨(k', frs), List.mem_cons_self _ _, rfl⟩
        · exact Or.inr ⟨x, List.mem_cons_of_mem _ hx', rfl⟩
      · simp only [bucket_insert, if_neg h1, if_neg h2] at hx
        rcases List.mem_cons.mp hx with rfl | hx'
        · exact Or.inr ⟨(k', frs), List.mem_cons_self _ _, rfl⟩
        · rcases ih hx' with hk | ⟨y, hy, hxy⟩
          · exact Or.inl hk
          · exact Or.inr ⟨y, List.mem_cons_of_mem _ hy, hxy⟩

theorem bucket_insert_sorted (k : Nat) (fr : SimpleOrderPF) :
    ∀ {m : List (Nat × Fragments)}, buckets_sorted m →
      buckets_sorted (bucket_insert k fr m) := by
  intro m
  induction m with
  | nil =>
    intro _
    simp only [bucket_insert, buckets_sorted]
    exact List.pairwise_singleton _ _
  | cons e rest ih =>
    rcases e with ⟨k', frs⟩
    intro hsorted
    have hpair := List.pairwise_cons.mp hsorted
    by_cases h1 : k < k'
    · simp only [bucket_insert, if_pos h1]
      refine List.pairwise_cons.mpr ⟨?_, hsorted⟩
      intro x hx
      rcases List.mem_cons.mp hx with rfl | hx'
      · exact h1
      · exact Nat.lt_trans h1 (hpair.1 _ hx')
    · by_cases h2 : k = k'
      · simp only [bucket_insert, if_neg h1, if_pos h2]
        exact List.pairwise_cons.mpr ⟨hpair.1, hpair.2⟩
      · simp only [bucket_insert, if_neg h1, if_neg h2]
        refine List.pairwise_cons.mpr ⟨?_, ih hpair.2⟩
        intro x hx
        rcases mem_bucket_insert_key k fr hx with hk | ⟨y, hy, hxy⟩
        · omega
        · rw [hxy]
          exact hpair.1 _ hy

theorem drain_foldl_contains (cs : List (Nat × SimpleOrderPF)) :
    ∀ (m : List (Nat × Fragments)), buckets_sorted m →
      ∀ (t : Nat) (fr : SimpleOrderPF),
        ((t, fr) ∈ cs ∨ buckets_contain m t fr = true) →
        buckets_contain
          (cs.foldl (fun m e => bucket_insert e.1 e.2 m) m) t fr = true := by
  induction cs with
  | nil =>
    intro m _ t fr h
    rcases h with h | h
    · cases h
    · exact h
  | cons e cs' ih =>
    intro m hsorted t fr h
    have hsorted' := bucket_insert_sorted e.1 e.2 hsorted
    rcases h with h | h
    · rcases List.mem_cons.mp h with rfl | hmem
      · exact ih _ hsorted' t fr (Or.inr (bucket_insert_contains_self t fr m))
      · exact ih _ hsorted' t fr (Or.inl hmem)
    · exact ih _ hsorted' t fr
        (Or.inr (bucket_insert_contains_mono e.1 e.2 hsorted h))

/-- C4 counterexample: an inactive-changeset entry accumulated in a Preview
state is tracked before `on_recipe_failed` but is no longer retained by the
TLB afterwards — the rollback result installed as the new Idle state does not
carry the changeset. -/
theorem rollback_changeset_lost_counterexample :
    TLBState.retains_inactive_entry (.Preview c4x_preview) 1100 c4x_fr = true ∧
    TLBState.retains_inactive_entry
      ((TLBState.Preview c4x_preview).on_recipe_failed .unstash) 1100 c4x_fr =
        false := by
  constructor
  · rfl
  · rfl

/-- C4 amended: `rollback` itself neither drains nor clears the
inactive-fragments changeset (the entries survive in the `PreviewState`
structure under either stashing option), and `commit` drains every entry into
the chronology's inactive buckets; the Idle state produced by `rollback`,
however, does not contain the entries, so they are lost to the TLB once
`on_recipe_failed` installs it. -/
theorem preview_changeset_spec (p : PreviewState) (opt : StashingOption) :
    (p.rollback opt).1.inactive_fragments_changeset =
      p.inactive_fragments_changeset ∧
    p.commit.1.inactive_fragments_changeset = [] ∧
    (buckets_sorted p.fragments_intact.inactive →
      ∀ t fr, (t, fr) ∈ p.inactive_fragments_changeset →
        buckets_contain p.commit.2.fragments.inactive t fr = true) ∧
    (∀ t fr, (TLBState.Preview p).on_recipe_failed opt =
        .Idle (p.rollback opt).2 ∧
      buckets_contain (p.rollback opt).2.fragments.inactive t fr =
        buckets_contain p.fragments_intact.inactive t fr) := by
  refine ⟨?_, rfl, ?_, ?_⟩
  · cases opt <;> rfl
  · intro hsorted t fr hmem
    have : p.commit.2.fragments.inactive =
        drain_changeset p.inactive_fragments_changeset
          p.fragments_intact.inactive := rfl
    rw [this]
    unfold drain_changeset
    exact drain_foldl_contains _ _ hsorted t fr
      (Or.inl (List.mem_reverse.mpr hmem))
  · intro t fr
    refine ⟨rfl, ?_⟩
    cases opt <;> rfl

/-- C4 witness: a concrete changeset entry is still in the `PreviewState`
after rollback and lands in the inactive bucket of its activation time on
commit. -/
theorem preview_changeset_spec_witness :
    (c4x_preview.rollback .unstash).1.inactive_fragments_changeset =
      [(1100, c4x_fr)] ∧
    buckets_contain c4x_preview.commit.2.fragments.inactive 1100 c4x_fr =
      true := by
  refine ⟨(preview_changeset_spec c4x_preview .unstash).1, ?_⟩
  exact (preview_changeset_spec c4x_preview .unstash).2.2.1
    List.Pairwise.nil 1100 c4x_fr (List.mem_singleton.mpr rfl)

/-- C8: with both sides present, `pick_best_fr_either` returns the best bid
(re-inserting the best ask) exactly when the bid is at least as heavy and not
underpriced against the index, or the ask is overpriced against it; otherwise
it returns the best ask (re-inserting the bid).  A single present side wins by
default; two empty sides yield nothing. -/
theorem pick_best_fr_either_spec (af : Fragments) (idx : Option ℚ) :
    (∀ b a bids' asks', af.bids = b :: bids' → af.asks = a :: asks' →
      ((((a.weight ≤ b.weight) ∧ ¬(∃ ip, idx = some ip ∧ b.price < ip)) ∨
          (∃ ip, idx = some ip ∧ ip < a.price)) →
        pick_best_fr_either af idx =
          (some b, { asks := btree_insert a asks', bids := bids' })) ∧
      (¬(((a.weight ≤ b.weight) ∧ ¬(∃ ip, idx = some ip ∧ b.price < ip)) ∨
          (∃ ip, idx = some ip ∧ ip < a.price)) →
        pick_best_fr_either af idx =
          (some a, { asks := asks', bids := btree_insert b bids' }))) ∧
    (∀ b bids', af.bids = b :: bids' → af.asks = [] →
      pick_best_fr_either af idx = (some b, { af with bids := bids' })) ∧
    (∀ a asks', af.asks = a :: asks' → af.bids = [] →
      pick_best_fr_either af idx = (some a, { af with asks := asks' })) ∧
    (af.bids = [] → af.asks = [] →
      pick_best_fr_either af idx = (Option.none, af)) := by
  refine ⟨?_, ?_, ?_, ?_⟩
  · intro b a bids' asks' hb ha
    constructor
    · intro hcond
      cases idx with
      | none =>
        have hw : a.weight ≤ b.weight := by
          rcases hcond with ⟨h, _⟩ | ⟨ip, hip, _⟩
          · exact h
          · cases hip
        simp [pick_best_fr_either, hb, ha, hw]
      | some ip =>
        rcases hcond with ⟨hw, hnp⟩ | ⟨ip', hip, hlt⟩
        · have hb' : ¬b.price < ip := fun hc => hnp ⟨ip, rfl, hc⟩
          simp [pick_best_fr_either, hb, ha, hw, hb']
        · rcases Option.some.inj hip with rfl
          simp [pick_best_fr_either, hb, ha, hlt]
    · intro hcond
      cases idx with
      | none =>
        have hw : ¬a.weight ≤ b.weight := fun h =>
          hcond (Or.inl ⟨h, by rintro ⟨ip, hip, _⟩; cases hip⟩)
        simp [pick_best_fr_either, hb, ha, hw]
      | some ip =>
        have h1 : ¬ip < a.price := fun h => hcond (Or.inr ⟨ip, rfl, h⟩)
        by_cases h2 : a.weight ≤ b.weight
        · have h3 : b.price < ip := by
            by_contra h3
            refine hcond (Or.inl ⟨h2, ?_⟩)
            rintro ⟨ip', hip', hlt⟩
            rcases Option.some.inj hip' with rfl
            exact h3 hlt
          simp [pick_best_fr_either, hb, ha, h2, h3, h1]
        · simp [pick_best_fr_either, hb, ha, h2, h1]
  · intro b bids' hb ha
    simp [pick_best_fr_either, hb, ha]
  · intro a asks' ha hb
    simp [pick_best_fr_either, hb, ha]
  · intro hb ha
    simp [pick_best_fr_either, hb, ha]

/-- C8 witness: with no index price and a heavier bid, the bid is picked and
the ask re-inserted. -/
theorem pick_best_fr_either_spec_witness :
    pick_best_fr_either c8w_af Option.none =
      (some c8w_bid, { asks := btree_insert c8w_ask [], bids := [] }) := by
  have hw : c8w_ask.weight ≤ c8w_bid.weight := by
    norm_num [SimpleOrderPF.weight, c8w_ask, c8w_bid, SimpleOrderPF.new]
  exact ((pick_best_fr_either_spec c8w_af Option.none).1 c8w_bid c8w_ask
    [] [] rfl rfl).1 (Or.inl ⟨hw, by rintro ⟨ip, hip, _⟩; cases hip⟩)

theorem linear_output_lt (i : Nat) (p : SideV ℚ) :
    linear_output i p < 2 ^ 64 := by
  cases p <;> simp only [linear_output, wrap64] <;>
    exact Nat.mod_lt _ (by norm_num)

theorem sub64_cancel {s d : Nat} (h : d ≤ s) : sub64 s (sub64 s d) = d := by
  simp only [sub64]
  split_ifs <;> omega

/-- C7: in every fragment-to-fragment fill of two opposite-side fragments the
base consumed from the ask side equals the base credited to the bid side (in
all three supply/demand cases), and each produced terminal fill carries
exactly the next state, budget and fee computed by `with_applied_swap` on its
target at its recorded removed input and added output. -/
theorem fill_from_fragment_conservation (lhs : PartialFill)
    (rhs : SimpleOrderPF) (matchmaker : SimpleOrderPF → SimpleOrderPF → ℚ)
    (hside : rhs.side = lhs.target.side.flip)
    (hacc : lhs.accumulated_output < 2 ^ 64)
    (hinput : rhs.input < 2 ^ 64) :
    base_consumed_from_ask lhs rhs (fill_from_fragment lhs rhs matchmaker) =
      base_credited_to_bid lhs rhs (fill_from_fragment lhs rhs matchmaker) ∧
    ∀ f ∈ (fill_from_fragment lhs rhs matchmaker).terminal_fills,
      f.target_fr.with_applied_swap f.removed_input f.added_output =
        (f.next_fr, f.budget_used, f.fee_used) := by
  cases hs : lhs.target.side with
  | bid =>
    have hrs : rhs.side = SideM.ask := by rw [hside, hs]; rfl
    simp only [fill_from_fragment, hs]
    split_ifs with h1 h2
    · -- supply > demand: bid fills fully, ask remains partial
      constructor
      · simp only [base_consumed_from_ask, base_credited_to_bid, hs,
          PartialFill.new, hrs, PartialFill.filled_unsafe]
        rw [sub64_cancel (le_of_lt h1),
          sub64_add64_cancel _ _ hacc (linear_output_lt _ _)]
      · intro f hf
        simp only [FillFromFragment.terminal_fills, List.mem_singleton] at hf
        subst hf
        rfl
    · -- supply < demand: ask terminates, bid remains partial
      constructor
      · simp only [base_consumed_from_ask, base_credited_to_bid, hs, hrs]
        rw [sub64_add64_cancel _ _ hacc hinput]
      · intro f hf
        simp only [FillFromFragment.terminal_fills, List.mem_singleton] at hf
        subst hf
        rfl
    · -- supply = demand: both terminate
      have heq : linear_output lhs.remaining_input
          (.bid (matchmaker rhs lhs.target)) = rhs.input :=
        Nat.le_antisymm (le_of_not_lt h2) (le_of_not_lt h1)
      constructor
      · simp only [base_consumed_from_ask, base_credited_to_bid, hs,
          PartialFill.filled_unsafe]
        rw [sub64_add64_cancel _ _ hacc (linear_output_lt _ _), heq]
      · intro f hf
        simp only [FillFromFragment.terminal_fills, List.mem_cons,
          List.not_mem_nil, or_false] at hf
        rcases hf with rfl | rfl
        · rfl
        · rfl
  | ask =>
    have hrs : rhs.side = SideM.bid := by rw [hside, hs]; rfl
    simp only [fill_from_fragment, hs]
    split_ifs with h1 h2
    · -- supply > demand: bid terminates, ask remains partial
      constructor
      · simp only [base_consumed_from_ask, base_credited_to_bid, hs,
          Fill.new]
        rw [sub64_cancel (le_of_lt h1)]
      · intro f hf
        simp only [FillFromFragment.terminal_fills, List.mem_singleton] at hf
        subst hf
        rfl
    · -- supply < demand: ask terminates, bid remains partial
      constructor
      · simp only [base_consumed_from_ask, base_credited_to_bid, hs,
          PartialFill.new, hrs]
      · intro f hf
        simp only [FillFromFragment.terminal_fills, List.mem_singleton] at hf
        subst hf
        rfl
    · -- supply = demand: both terminate
      have heq : linear_output rhs.input
          (.bid (matchmaker rhs lhs.target)) = lhs.remaining_input :=
        Nat.le_antisymm (le_of_not_lt h2) (le_of_not_lt h1)
      constructor
      · simp only [base_consumed_from_ask, base_credited_to_bid, hs,
          Fill.new, heq]
      · intro f hf
        simp only [FillFromFragment.terminal_fills, List.mem_cons,
          List.not_mem_nil, or_false] at hf
        rcases hf with rfl | rfl
        · rfl
        · rfl

/-- C7 witness: an exact match between a 1000-input ask remainder and a
370-input bid at price 37/100 conserves the base asset. -/
theorem fill_from_fragment_conservation_witness :
    base_consumed_from_ask (PartialFill.empty c7w_ask) c7w_bid
        (fill_from_fragment (PartialFill.empty c7w_ask) c7w_bid
          (fun _ _ => 37 / 100)) =
      base_credited_to_bid (PartialFill.empty c7w_ask) c7w_bid
        (fill_from_fragment (PartialFill.empty c7w_ask) c7w_bid
          (fun _ _ => 37 / 100)) :=
  (fill_from_fragment_conservation (PartialFill.empty c7w_ask) c7w_bid
    (fun _ _ => 37 / 100) rfl (by norm_num [PartialFill.empty, c7w_ask,
      SimpleOrderPF.new]) (by norm_num [c7w_bid, SimpleOrderPF.new])).1

theorem settle_price_eq (a b : SimpleOrderPF) (idx : Option ℚ) :
    settle_price a b idx =
      truncated
        (to_unsigned (to_signed (pivot_price a b idx) +
          to_signed (pivot_price a b idx * ((MAX_BIAS_PERCENT : ℚ) / 100)) *
            ((((if (a.fee : ℤ) < (b.fee : ℤ)
                then Int.tdiv (-(a.fee : ℤ) * 100) (b.fee : ℤ)
                else Int.tdiv ((b.fee : ℤ) * 100) (a.fee : ℤ)) : ℤ) : ℚ) /
              100)))
        a.price b.price := by
  cases idx <;> rfl

theorem pivot_price_mem (a b : SimpleOrderPF) (idx : Option ℚ)
    (hab : a.price ≤ b.price) :
    a.price ≤ pivot_price a b idx ∧ pivot_price a b idx ≤ b.price := by
  cases idx with
  | none =>
    unfold pivot_price
    constructor <;> [skip; skip] <;> linarith
  | some ip => exact truncated_mem hab

theorem nat_tdiv_cast (m n : Nat) :
    ((m : ℤ)).tdiv (n : ℤ) = ((m / n : ℕ) : ℤ) := by
  exact_mod_cast Int.ofNat_tdiv m n

theorem bias_percent_bounds (fa fb : Nat) (h : fa ≠ 0 ∨ fb ≠ 0) :
    |(if (fa : ℤ) < (fb : ℤ) then Int.tdiv (-(fa : ℤ) * 100) (fb : ℤ)
      else Int.tdiv ((fb : ℤ) * 100) (fa : ℤ))| ≤ 100 := by
  rw [abs_le]
  split_ifs with hlt
  · have hfb' : (0 : ℤ) < (fb : ℤ) :=
      lt_of_le_of_lt (Int.natCast_nonneg fa) hlt
    have hfbn : 0 < fb := by exact_mod_cast hfb'
    have hle : fa < fb := by exact_mod_cast hlt
    have heq : (-(fa : ℤ) * 100) = -((fa * 100 : Nat) : ℤ) := by
      push_cast; ring
    rw [heq, Int.neg_tdiv, nat_tdiv_cast]
    have hdb : fa * 100 / fb ≤ 100 := by
      calc fa * 100 / fb ≤ fb * 100 / fb :=
            Nat.div_le_div_right (Nat.mul_le_mul_right _ (le_of_lt hle))
        _ = 100 := Nat.mul_div_cancel_left 100 hfbn
    have hx : ((fa * 100 / fb : ℕ) : ℤ) ≤ 100 := by exact_mod_cast hdb
    have hx0 : (0 : ℤ) ≤ ((fa * 100 / fb : ℕ) : ℤ) := Int.natCast_nonneg _
    constructor <;> linarith
  · have hle : fb ≤ fa := by exact_mod_cast not_lt.mp hlt
    have hfa : 0 < fa := by rcases h with h | h <;> omega
    have heq : ((fb : ℤ) * 100) = ((fb * 100 : Nat) : ℤ) := by
      push_cast; ring
    rw [heq, nat_tdiv_cast]
    have hdb : fb * 100 / fa ≤ 100 := by
      calc fb * 100 / fa ≤ fa * 100 / fa :=
            Nat.div_le_div_right (Nat.mul_le_mul_right _ hle)
        _ = 100 := Nat.mul_div_cancel_left 100 hfa
    have hx : ((fb * 100 / fa : ℕ) : ℤ) ≤ 100 := by exact_mod_cast hdb
    have hx0 : (0 : ℤ) ≤ ((fb * 100 / fa : ℕ) : ℤ) := Int.natCast_nonneg _
    constructor <;> linarith

/-- C1: with overlapping prices and fees not both zero, the settled price is
clamped into `[ask.price, bid.price]` and deviates from the pivot price by at
most 3% of the pivot. -/
theorem settle_price_clamped (a b : SimpleOrderPF) (idx : Option ℚ)
    (hab : a.price ≤ b.price) (ha : 0 ≤ a.price)
    (hfee : a.fee ≠ 0 ∨ b.fee ≠ 0) :
    a.price ≤ settle_price a b idx ∧
    settle_price a b idx ≤ b.price ∧
    |settle_price a b idx - pivot_price a b idx| ≤
      pivot_price a b idx * (3 / 100) := by
  have hmem := pivot_price_mem a b idx hab
  have hP : 0 ≤ pivot_price a b idx := le_trans ha hmem.1
  set P := pivot_price a b idx with hPdef
  set β : ℤ :=
    (if (a.fee : ℤ) < (b.fee : ℤ) then Int.tdiv (-(a.fee : ℤ) * 100) (b.fee : ℤ)
     else Int.tdiv ((b.fee : ℤ) * 100) (a.fee : ℤ)) with hβ
  have hβb : |β| ≤ 100 := bias_percent_bounds a.fee b.fee hfee
  have hβq : |((β : ℚ) / 100)| ≤ 1 := by
    rw [abs_div]
    rw [show |(100 : ℚ)| = 100 by norm_num]
    rw [div_le_one (by norm_num)]
    exact_mod_cast hβb
  set dev : ℚ := P * ((MAX_BIAS_PERCENT : ℚ) / 100) * ((β : ℚ) / 100)
    with hdev
  have h3 : (MAX_BIAS_PERCENT : ℚ) = 3 := by norm_num [MAX_BIAS_PERCENT]
  have hM : (0 : ℚ) ≤ P * ((MAX_BIAS_PERCENT : ℚ) / 100) := by
    rw [h3]
    positivity
  have hdevb : |dev| ≤ P * ((MAX_BIAS_PERCENT : ℚ) / 100) := by
    rw [hdev, abs_mul, abs_of_nonneg hM]
    calc P * ((MAX_BIAS_PERCENT : ℚ) / 100) * |(β : ℚ) / 100| ≤
        P * ((MAX_BIAS_PERCENT : ℚ) / 100) * 1 :=
          mul_le_mul_of_nonneg_left hβq hM
      _ = P * ((MAX_BIAS_PERCENT : ℚ) / 100) := mul_one _
  have hM3 : P * ((MAX_BIAS_PERCENT : ℚ) / 100) = P * (3 / 100) := by
    rw [h3]
  have hcor : (0 : ℚ) ≤ P + dev := by
    have := abs_le.mp hdevb
    nlinarith [this.1, hP]
  have hsettle : settle_price a b idx = truncated (P + dev) a.price b.price := by
    rw [settle_price_eq]
    simp only [to_signed, ← hβ, ← hPdef, ← hdev, to_unsigned_of_nonneg hcor]
  rw [hsettle]
  have hclamp := truncated_mem (v := P + dev) hab
  refine ⟨hclamp.1, hclamp.2, ?_⟩
  have hdist := truncated_dist (v := P + dev) hmem.1 hmem.2
  have : |P + dev - P| = |dev| := by ring_nf
  rw [← hM3]
  calc |truncated (P + dev) a.price b.price - P| ≤ |P + dev - P| := hdist
    _ = |dev| := by ring_nf
    _ ≤ P * ((MAX_BIAS_PERCENT : ℚ) / 100) := hdevb

/-- C1 witness: a concrete overlapping ask/bid pair with index price 2/5
satisfies the clamp and 3%-bias bound. -/
theorem settle_price_clamped_witness :
    c1w_ask.price ≤ settle_price c1w_ask c1w_bid (some (2 / 5)) ∧
    settle_price c1w_ask c1w_bid (some (2 / 5)) ≤ c1w_bid.price ∧
    |settle_price c1w_ask c1w_bid (some (2 / 5)) -
        pivot_price c1w_ask c1w_bid (some (2 / 5))| ≤
      pivot_price c1w_ask c1w_bid (some (2 / 5)) * (3 / 100) :=
  settle_price_clamped c1w_ask c1w_bid (some (2 / 5))
    (by norm_num [c1w_ask, c1w_bid, SimpleOrderPF.new])
    (by norm_num [c1w_ask, SimpleOrderPF.new])
    (Or.inl (by norm_num [c1w_ask, SimpleOrderPF.new]))

/-- C2 counterexample: with equal positive fees (1000 and 1000), ask price
3/10 and bid price 1/2 and no index, the settled price is 103/250, not the
pivot 2/5 — the bias computed for equal fees is +100, not 0. -/
theorem settle_price_equal_fees_counterexample :
    c2x_ask.price ≤ c2x_bid.price ∧
    c2x_ask.fee = c2x_bid.fee ∧
    0 < c2x_ask.fee ∧
    settle_price c2x_ask c2x_bid Option.none ≠
      pivot_price c2x_ask c2x_bid Option.none := by
  have hpiv : pivot_price c2x_ask c2x_bid Option.none = 2 / 5 := by
    norm_num [pivot_price, c2x_ask, c2x_bid, SimpleOrderPF.new]
  have htd : Int.tdiv ((1000 : ℤ) * 100) 1000 = 100 := by decide
  have hset : settle_price c2x_ask c2x_bid Option.none = 103 / 250 := by
    rw [settle_price_eq, hpiv]
    have hfees : (c2x_ask.fee : ℤ) = 1000 ∧ (c2x_bid.fee : ℤ) = 1000 := by
      norm_num [c2x_ask, c2x_bid, SimpleOrderPF.new]
    rw [hfees.1, hfees.2, if_neg (lt_irrefl (1000 : ℤ)), htd]
    have hval : to_signed (2 / 5 : ℚ) +
        to_signed ((2 / 5 : ℚ) * ((MAX_BIAS_PERCENT : ℚ) / 100)) *
          (((100 : ℤ) : ℚ) / 100) = 103 / 250 := by
      norm_num [to_signed, MAX_BIAS_PERCENT]
    rw [hval, to_unsigned_of_nonneg (by norm_num)]
    have hpa : c2x_ask.price = 3 / 10 := by
      norm_num [c2x_ask, SimpleOrderPF.new]
    have hpb : c2x_bid.price = 1 / 2 := by
      norm_num [c2x_bid, SimpleOrderPF.new]
    rw [hpa, hpb]
    norm_num [truncated]
  refine ⟨?_, rfl, ?_, ?_⟩
  · norm_num [c2x_ask, c2x_bid, SimpleOrderPF.new]
  · norm_num [c2x_ask, SimpleOrderPF.new]
  · rw [hset, hpiv]
    norm_num

/-- C2 amended: with equal positive fees the bias is +100 percent, so the
settled price is the pivot shifted up by the full 3% deviation and then
clamped into `[ask.price, bid.price]` — not the pivot itself. -/
theorem settle_price_equal_fees (a b : SimpleOrderPF) (idx : Option ℚ)
    (hab : a.price ≤ b.price) (ha : 0 ≤ a.price)
    (hfa : a.fee = b.fee) (hpos : 0 < a.fee) :
    settle_price a b idx =
      truncated
        (pivot_price a b idx + pivot_price a b idx * (3 / 100))
        a.price b.price := by
  have hmem := pivot_price_mem a b idx hab
  have hP : 0 ≤ pivot_price a b idx := le_trans ha hmem.1
  have hposb : 0 < b.fee := hfa ▸ hpos
  rw [settle_price_eq, hfa]
  rw [if_neg (lt_irrefl ((b.fee : ℤ)))]
  have htd : Int.tdiv ((b.fee : ℤ) * 100) (b.fee : ℤ) = 100 := by
    rw [show ((b.fee : ℤ) * 100) = ((b.fee * 100 : ℕ) : ℤ) by push_cast; ring,
      nat_tdiv_cast]
    have : b.fee * 100 / b.fee = 100 := Nat.mul_div_cancel_left 100 hposb
    exact_mod_cast this
  rw [htd]
  have h3 : (MAX_BIAS_PERCENT : ℚ) = 3 := by norm_num [MAX_BIAS_PERCENT]
  have hval : to_signed (pivot_price a b idx) +
      to_signed (pivot_price a b idx * ((MAX_BIAS_PERCENT : ℚ) / 100)) *
        (((100 : ℤ) : ℚ) / 100) =
      pivot_price a b idx + pivot_price a b idx * (3 / 100) := by
    rw [h3]
    simp only [to_signed]
    ring_nf
  rw [hval, to_unsigned_of_nonneg (by positivity)]

/-- C2 witness: the amended rule evaluated at the counterexample's inputs. -/
theorem settle_price_equal_fees_witness :
    settle_price c2x_ask c2x_bid Option.none =
      truncated
        (pivot_price c2x_ask c2x_bid Option.none +
          pivot_price c2x_ask c2x_bid Option.none * (3 / 100))
        c2x_ask.price c2x_bid.price :=
  settle_price_equal_fees c2x_ask c2x_bid Option.none
    (by norm_num [c2x_ask, c2x_bid, SimpleOrderPF.new])
    (by norm_num [c2x_ask, SimpleOrderPF.new])
    rfl
    (by norm_num [c2x_ask, SimpleOrderPF.new])
